import Mathlib

/-!
BFS namespace engine: a shallow embedding of `ns/namespace.go`, of the name
service of `bfs/nameservice/nameservice.go` and of the routing, rename and list
producer of `bfs/client/client.go`.

The LevelDB handle is modelled as an ordered byte-key map (a key-sorted
association list) whose calls do not fail with an I/O error; a batch is
replayed in the order its operations were staged.  `json.Marshal` and
`json.Unmarshal` are a parameter (`Codec`), since they belong to the standard
library and not to the repository.  Go strings and byte slices are lists of
byte values (natural numbers, below 256 in real data); the `uint32` counter of
`Delete` wraps at `2 ^ 32`.  A visitor closure is a function on the state of
its captured variables.  A run-time panic of the Go code is the result
`Err.runtimePanic`; the goroutine that feeds the channel of `Client.List` is run
to its end as a function on the channel.
-/

namespace Bfs

/-! ## Bytes and their order (`bytes.Compare`, LevelDB's default comparer) -/

/-- A Go `string` or `[]byte`: a sequence of byte values. -/
abbrev Bytes := List Nat

/-- The test `bytes.Compare(a, b) < 0`: byte-lexicographic order. -/
def bytesLt : Bytes → Bytes → Bool
  | [], [] => false
  | [], _ :: _ => true
  | _ :: _, [] => false
  | a :: as, b :: bs =>
    if a < b then true else if b < a then false else bytesLt as bs

/-- The test `strings.HasPrefix(s, pre)`. -/
def hasPrefix : Bytes → Bytes → Bool
  | _, [] => true
  | [], _ :: _ => false
  | a :: as, b :: bs => a == b && hasPrefix as bs

/-! ## Key space -/

def dbPrefix_Entry : Nat := 1
def dbPrefix_GlobalMetadata : Nat := 2
def dbPrefix_BlockAssignment : Nat := 4

/-- The function `keyFor`: `bytes.Join([][]byte{{table}, []byte(key)}, nil)`. -/
def keyFor (table : Nat) (key : Bytes) : Bytes :=
  [table] ++ key

/-! ## The ordered key-value store -/

/-- One row of the database: key and value. -/
abbrev Row := Bytes × Bytes

/-- Content of a LevelDB database: rows in ascending key order. -/
abbrev Store := List Row

/-- Call `db.Get(key)`: `none` stands for `leveldb.ErrNotFound`. -/
def dbGet : Store → Bytes → Option Bytes
  | [], _ => none
  | (k, v) :: rest, key => if k = key then some v else dbGet rest key

/-- Call `db.Has(key)`. -/
def dbHas (db : Store) (key : Bytes) : Bool :=
  (dbGet db key).isSome

/-- Call `db.Put(key, value)`: insert at the key's place, replacing an old row. -/
def dbPut : Store → Bytes → Bytes → Store
  | [], key, value => [(key, value)]
  | (k, v) :: rest, key, value =>
    if bytesLt key k then (key, value) :: (k, v) :: rest
    else if k = key then (key, value) :: rest
    else (k, v) :: dbPut rest key value

/-- Call `db.Delete(key)`. -/
def dbDelete (db : Store) (key : Bytes) : Store :=
  db.filter (fun r => decide (r.1 ≠ key))

/-- Membership of a key in `util.Range{Start, Limit}`: `Start <= key < Limit`,
a nil bound being no bound. -/
def inRange (start limit : Option Bytes) (key : Bytes) : Bool :=
  (match start with
   | none => true
   | some s => !bytesLt key s) &&
  (match limit with
   | none => true
   | some l => bytesLt key l)

/-- Rows that `db.NewIterator(&util.Range{Start, Limit}, ...)` walks through with
`iter.Next()`, in that order. -/
def dbIter (db : Store) (start limit : Option Bytes) : List Row :=
  db.filter (fun r => inRange start limit r.1)

/-- One staged operation of a `leveldb.Batch`. -/
inductive BatchOp where
  | put (key value : Bytes)
  | delete (key : Bytes)
  deriving DecidableEq, Repr

/-- A `leveldb.Batch`: operations in the order they were staged. -/
abbrev Batch := List BatchOp

/-- Call `db.Write(&batch, ...)`: the staged operations are replayed in order. -/
def dbWrite : Store → Batch → Store
  | db, [] => db
  | db, BatchOp.put k v :: rest => dbWrite (dbPut db k v) rest
  | db, BatchOp.delete k :: rest => dbWrite (dbDelete db k) rest

/-! ## Package `ns`: data model -/

namespace ns

/-- Go `time.Time`, reduced to an instant. -/
abbrev Time := Int

/-- Struct `BlockMetadata`. -/
structure BlockMetadata where
  Block : Bytes
  LVName : Bytes
  PVID : Bytes
  deriving DecidableEq, Repr

/-- Struct `Entry`; `Permissions` and `Status` are `uint8`, `BlockSize` and `Size`
are `uint64`, `ReplicationLevel` is `uint32`.  The elements of `Blocks` are the
pointed-to values (a nil element makes `Add` stop with a nil dereference). -/
structure Entry where
  VolumeName : Bytes
  Path : Bytes
  Blocks : List BlockMetadata
  Permissions : Nat
  Status : Nat
  BlockSize : Nat
  Size : Nat
  ReplicationLevel : Nat
  Ctime : Time
  Mtime : Time
  deriving DecidableEq, Repr

def FileStatus_Unknown : Nat := 0
def FileStatus_UnderConstruction : Nat := 1
def FileStatus_OK : Nat := 2
def FileStatus_PendingDelete : Nat := 3

/-- Type `status` of the namespace with its three constants. -/
inductive status where
  | namespaceStatus_INITIAL
  | namespaceStatus_OPEN
  | namespaceStatus_CLOSED
  deriving DecidableEq, Repr

open status

/-- Go `error` values that the two packages produce or pass on. -/
inductive Err where
  /-- `fmt.Errorf("unable to open namespace from state %v", state)` -/
  | openFromState (state : status)
  /-- `fmt.Errorf("unable to close namespace from state %v", state)` -/
  | closeFromState (state : status)
  /-- `fmt.Errorf("unable to perform operation in state %v", state)` -/
  | operationInState (state : status)
  /-- `&Error{Path: path, error: ErrNoSuchEntry}` -/
  | noSuchEntry (Path : Bytes)
  /-- `io.EOF` -/
  | EOF
  /-- an error of `json.Marshal` or `json.Unmarshal` -/
  | json
  /-- an error of `stream.Send` -/
  | send
  /-- a run-time panic: index out of range, nil dereference, misuse of a closed
  channel -/
  | runtimePanic
  /-- `consistent.ErrEmptyCircle` -/
  | emptyCircle
  /-- an error of `grpc.Dial`, returned by the connection cache -/
  | dial
  /-- a transport error of an RPC or of a stream -/
  | transport
  deriving DecidableEq, Repr

/-- The calls `json.Marshal(entry)`, `json.Unmarshal(value, &entry)` and
`json.Marshal(blockMetadata)` of the standard library; `none` is a returned
error. -/
structure Codec where
  marshalEntry : Entry → Option Bytes
  unmarshalEntry : Bytes → Option Entry
  marshalBlock : BlockMetadata → Option Bytes

/-- Struct `Namespace`.  The field `db` is the content of the LevelDB database
at `path`: what `leveldb.OpenFile` finds there, and the open handle afterwards. -/
structure Namespace where
  path : Bytes
  db : Store
  state : status
  deriving DecidableEq, Repr

/-- Function `New`, with the content `disk` of the database directory. -/
def New (path : Bytes) (disk : Store) : Namespace :=
  { path := path, db := disk, state := namespaceStatus_INITIAL }

/-- The string "blockId". -/
def blockIdKey : Bytes := [98, 108, 111, 99, 107, 73, 100]

/-- Method `Namespace.Open` (the database calls succeed). -/
def Namespace.Open (this : Namespace) : Namespace × Option Err :=
  if this.state ≠ namespaceStatus_INITIAL then
    (this, some (Err.openFromState this.state))
  else
    let key := keyFor dbPrefix_GlobalMetadata blockIdKey
    let db := if dbHas this.db key then this.db else dbPut this.db key [0]
    ({ this with db := db, state := namespaceStatus_OPEN }, none)

/-- The loop `for _, blockMetadata := range entry.Blocks` of `Add`. -/
def addBlocks (c : Codec) : Store → List BlockMetadata → Store × Option Err
  | db, [] => (db, none)
  | db, blockMetadata :: rest =>
    let key := keyFor dbPrefix_BlockAssignment blockMetadata.Block
    match c.marshalBlock blockMetadata with
    | none => (db, some Err.json)
    | some value => addBlocks c (dbPut db key value) rest

/-- Method `Namespace.Add`. -/
def Namespace.Add (c : Codec) (this : Namespace) (entry : Entry) : Namespace × Option Err :=
  if this.state ≠ namespaceStatus_OPEN then
    (this, some (Err.operationInState this.state))
  else
    match c.marshalEntry entry with
    | none => (this, some Err.json)
    | some value =>
      let key := keyFor dbPrefix_Entry entry.Path
      let r := addBlocks c (dbPut this.db key value) entry.Blocks
      ({ this with db := r.1 }, r.2)

/-- Method `Namespace.Get`. -/
def Namespace.Get (c : Codec) (this : Namespace) (path : Bytes) : Except Err Entry :=
  if this.state ≠ namespaceStatus_OPEN then
    Except.error (Err.operationInState this.state)
  else
    let key := keyFor dbPrefix_Entry path
    match dbGet this.db key with
    | none => Except.error (Err.noSuchEntry path)
    | some value =>
      match c.unmarshalEntry value with
      | none => Except.error Err.json
      | some entry => Except.ok entry

/-- A visitor `func(*Entry, error) (bool, error)` whose captured variables are
a state of type `σ`. -/
abbrev Visitor (σ : Type) := σ → Option Entry → Option Err → σ × Bool × Option Err

/-- The loop `for iter.Next()` of `List` over the rows of the iterator.  The
second component is the error that `List` returns from inside the loop; `none`
means the loop ended (rows exhausted, or `break`). -/
def listLoop {σ : Type} (c : Codec) (visitor : Visitor σ) : List Row → σ → σ × Option Err
  | [], s => (s, none)
  | ([], _) :: _, s => (s, some Err.runtimePanic)
  | (b :: _, value) :: rest, s =>
    if b ≠ dbPrefix_Entry then listLoop c visitor rest s
    else
      match c.unmarshalEntry value with
      | none => (s, some Err.json)
      | some entry =>
        match visitor s (some entry) none with
        | (s1, _, some err) => (s1, some err)
        | (s1, ok, none) => if !ok then (s1, none) else listLoop c visitor rest s1

/-- Method `Namespace.List`: the visitor's final state and the returned error. -/
def Namespace.List {σ : Type} (c : Codec) (this : Namespace) (from_ to_ : Bytes)
    (visitor : Visitor σ) (s : σ) : σ × Option Err :=
  if this.state ≠ namespaceStatus_OPEN then
    (s, some (Err.operationInState this.state))
  else
    let startKey := if from_ ≠ [] then some (keyFor dbPrefix_Entry from_) else none
    let endKey := if to_ ≠ [] then some (keyFor dbPrefix_Entry to_) else none
    match listLoop c visitor (dbIter this.db startKey endKey) s with
    | (s1, some err) => (s1, some err)
    | (s1, none) => ((visitor s1 none (some Err.EOF)).1, none)

/-- The closure that `Delete` passes to `List`; its captured variables are
`batch` and the `uint32` counter `entriesDeleted`. -/
def deleteVisitor (path : Bytes) (recursive : Bool) : Visitor (Batch × Nat)
  | st, _, some Err.EOF => (st, false, none)
  | st, _, some err => (st, false, some err)
  | st, none, none => (st, false, some Err.runtimePanic)
  | (batch, entriesDeleted), some entry, none =>
    if recursive && !hasPrefix entry.Path path then ((batch, entriesDeleted), false, none)
    else if !recursive && entry.Path ≠ path then ((batch, entriesDeleted), false, none)
    else
      ((batch ++ [BatchOp.delete (keyFor dbPrefix_Entry entry.Path)],
        (entriesDeleted + 1) % 2 ^ 32), true, none)

/-- Method `Namespace.Delete`: the namespace afterwards, `entriesDeleted` and
the error. -/
def Namespace.Delete (c : Codec) (this : Namespace) (path : Bytes) (recursive : Bool) :
    Namespace × Nat × Option Err :=
  if this.state ≠ namespaceStatus_OPEN then
    (this, 0, some (Err.operationInState this.state))
  else
    let r := Namespace.List c this path [] (deleteVisitor path recursive) (([] : Batch), 0)
    ({ this with db := dbWrite this.db r.1.1 }, r.1.2, none)

/-- Method `Namespace.Rename`. -/
def Namespace.Rename (c : Codec) (this : Namespace) (from_ to_ : Bytes) :
    Namespace × Bool × Option Err :=
  if this.state ≠ namespaceStatus_OPEN then
    (this, false, some (Err.operationInState this.state))
  else
    match Namespace.Get c this from_ with
    | Except.error err => (this, false, some err)
    | Except.ok entry =>
      let entry := { entry with Path := to_ }
      match c.marshalEntry entry with
      | none => (this, false, some Err.json)
      | some value =>
        let batch : Batch :=
          [BatchOp.put (keyFor dbPrefix_Entry to_) value,
           BatchOp.delete (keyFor dbPrefix_Entry from_)]
        ({ this with db := dbWrite this.db batch }, true, none)

/-- Method `Namespace.Close`. -/
def Namespace.Close (this : Namespace) : Namespace × Option Err :=
  if this.state ≠ namespaceStatus_OPEN then
    (this, some (Err.closeFromState this.state))
  else
    ({ this with state := namespaceStatus_CLOSED }, none)

/-! ## Concrete codecs

Any pair of functions can stand for the JSON calls.  The format here writes each
string with its length in front and each number as one element.  `plainCodec`
gives every entry back as it was written; `jsonCodec` treats strings as
`encoding/json` does and writes U+FFFD for each byte that is not part of valid
UTF-8, so that an entry with such a path is not given back unchanged. -/

/-- A string, its length first. -/
def putBytes (b : Bytes) : Bytes := b.length :: b

/-- Reads a string written by `putBytes`; returns it with the rest of the input. -/
def getBytes : Bytes → Option (Bytes × Bytes)
  | [] => none
  | n :: rest => if n ≤ rest.length then some (rest.take n, rest.drop n) else none

/-- An integer: sign, then magnitude. -/
def putInt (i : Int) : Bytes := [if i < 0 then 1 else 0, i.natAbs]

/-- Reads an integer written by `putInt`. -/
def getInt : Bytes → Option (Int × Bytes)
  | sign :: n :: rest => some (if sign = 1 then -(n : Int) else (n : Int), rest)
  | _ => none

def putBlock (b : BlockMetadata) : Bytes :=
  putBytes b.Block ++ putBytes b.LVName ++ putBytes b.PVID

def getBlock (input : Bytes) : Option (BlockMetadata × Bytes) :=
  match getBytes input with
  | none => none
  | some (block, r1) =>
    match getBytes r1 with
    | none => none
    | some (lvName, r2) =>
      match getBytes r2 with
      | none => none
      | some (pvid, r3) => some ({ Block := block, LVName := lvName, PVID := pvid }, r3)

def putBlocks : List BlockMetadata → Bytes
  | [] => []
  | b :: rest => putBlock b ++ putBlocks rest

/-- Reads `n` blocks. -/
def getBlocks : Nat → Bytes → Option (List BlockMetadata × Bytes)
  | 0, input => some ([], input)
  | n + 1, input =>
    match getBlock input with
    | none => none
    | some (b, r1) =>
      match getBlocks n r1 with
      | none => none
      | some (bs, r2) => some (b :: bs, r2)

def putEntry (e : Entry) : Bytes :=
  putBytes e.VolumeName ++ putBytes e.Path ++ (e.Blocks.length :: putBlocks e.Blocks) ++
    [e.Permissions, e.Status, e.BlockSize, e.Size, e.ReplicationLevel] ++
    putInt e.Ctime ++ putInt e.Mtime

def getEntry (input : Bytes) : Option Entry :=
  match getBytes input with
  | none => none
  | some (volumeName, r1) =>
    match getBytes r1 with
    | none => none
    | some (path, r2) =>
      match r2 with
      | [] => none
      | n :: r3 =>
        match getBlocks n r3 with
        | none => none
        | some (blocks, r4) =>
          match r4 with
          | permissions :: st :: blockSize :: size :: replicationLevel :: r5 =>
            match getInt r5 with
            | none => none
            | some (ctime, r6) =>
              match getInt r6 with
              | some (mtime, []) =>
                some { VolumeName := volumeName, Path := path, Blocks := blocks,
                       Permissions := permissions, Status := st, BlockSize := blockSize,
                       Size := size, ReplicationLevel := replicationLevel,
                       Ctime := ctime, Mtime := mtime }
              | _ => none
          | _ => none

/-- An idealised codec: it gives back every entry, whatever the bytes of its
strings. -/
def plainCodec : Codec :=
  { marshalEntry := fun e => some (putEntry e),
    unmarshalEntry := getEntry,
    marshalBlock := fun b => some (putBlock b) }

/-- A continuation byte of UTF-8. -/
def isCont (b : Nat) : Bool :=
  decide (128 ≤ b) && decide (b ≤ 191)

/-- The second byte of a UTF-8 sequence is in the range that its first byte
accepts (the accept ranges of the package `unicode/utf8`). -/
def secondOK (b0 b1 : Nat) : Bool :=
  decide ((if b0 = 224 then 160 else if b0 = 240 then 144 else 128) ≤ b1) &&
  decide (b1 ≤ (if b0 = 237 then 159 else if b0 = 244 then 143 else 191))

/-- The size of the valid UTF-8 sequence at the head of a string, 0 when there is
none (`utf8.DecodeRuneInString` then gives `RuneError` of size 1). -/
def runeLen : Bytes → Nat
  | [] => 0
  | b0 :: rest =>
    if b0 < 128 then 1
    else if 194 ≤ b0 ∧ b0 ≤ 223 then
      match rest with
      | b1 :: _ => if secondOK b0 b1 then 2 else 0
      | _ => 0
    else if 224 ≤ b0 ∧ b0 ≤ 239 then
      match rest with
      | b1 :: b2 :: _ => if secondOK b0 b1 && isCont b2 then 3 else 0
      | _ => 0
    else if 240 ≤ b0 ∧ b0 ≤ 244 then
      match rest with
      | b1 :: b2 :: b3 :: _ => if secondOK b0 b1 && isCont b2 && isCont b3 then 4 else 0
      | _ => 0
    else 0

/-- The loop of `coerceUTF8`, with the length of the string as fuel. -/
def coerceLoop : Nat → Bytes → Bytes
  | 0, _ => []
  | _ + 1, [] => []
  | fuel + 1, b :: rest =>
    if runeLen (b :: rest) = 0 then 239 :: 191 :: 189 :: coerceLoop fuel rest
    else (b :: rest).take (runeLen (b :: rest)) ++
      coerceLoop fuel ((b :: rest).drop (runeLen (b :: rest)))

/-- A string after `json.Marshal` and `json.Unmarshal`: each byte that is not part
of a valid UTF-8 sequence has become U+FFFD (the bytes EF BF BD), the rest is
unchanged. -/
def coerceUTF8 (s : Bytes) : Bytes :=
  coerceLoop s.length s

/-- A block with its strings as JSON gives them back. -/
def coerceBlock (b : BlockMetadata) : BlockMetadata :=
  { Block := coerceUTF8 b.Block, LVName := coerceUTF8 b.LVName, PVID := coerceUTF8 b.PVID }

/-- An entry with its strings as JSON gives them back. -/
def coerceEntry (e : Entry) : Entry :=
  { e with VolumeName := coerceUTF8 e.VolumeName, Path := coerceUTF8 e.Path,
           Blocks := e.Blocks.map coerceBlock }

/-- A codec that follows `encoding/json` on strings: what `Unmarshal` reads back
is the entry with its strings coerced to valid UTF-8. -/
def jsonCodec : Codec :=
  { marshalEntry := fun e => some (putEntry (coerceEntry e)),
    unmarshalEntry := getEntry,
    marshalBlock := fun b => some (putBlock (coerceBlock b)) }

end ns

/-! ## Package `nameservice`: the `List` stream producer -/

namespace nameservice

open ns

def DefaultListBatchSize : Nat := 512

/-- Modelled from the spec: the generated message `BlockMetadata` of the RPC
surface is not among the sources; it has the fields that `nameservice.go`
fills in. -/
structure BlockMetadata where
  BlockId : Bytes
  PvId : Bytes
  deriving DecidableEq, Repr

/-- Modelled from the spec: the generated message `Entry` of the RPC surface is
not among the sources; it has the fields that `nameservice.go` fills in
(`Permissions` is `uint32` there). -/
structure Entry where
  Path : Bytes
  LvId : Bytes
  Blocks : List BlockMetadata
  Permissions : Nat
  BlockSize : Nat
  ReplicationLevel : Nat
  Size : Nat
  deriving DecidableEq, Repr

/-- Modelled from the spec: the generated message `ListResponse{entries}`. -/
structure ListResponse where
  Entries : List Entry
  deriving DecidableEq, Repr

/-- Modelled from the spec: the generated message `ListRequest{start_key, end_key}`. -/
structure ListRequest where
  StartKey : Bytes
  EndKey : Bytes
  deriving DecidableEq, Repr

/-- Modelled from the spec: the server side of the `List` stream,
`NameService_ListServer`, is not among the sources.  It holds the responses
sent so far; `budget` is the number of `Send` calls that will still succeed,
`none` for a stream whose `Send` never fails. -/
structure NameService_ListServer where
  sent : List ListResponse
  budget : Option Nat
  deriving DecidableEq, Repr

/-- Modelled from the spec: the call `stream.Send(response)`. -/
def NameService_ListServer.Send (stream : NameService_ListServer) (response : ListResponse) :
    NameService_ListServer × Option Err :=
  match stream.budget with
  | some 0 => (stream, some Err.send)
  | some (k + 1) => ({ sent := stream.sent ++ [response], budget := some k }, none)
  | none => ({ stream with sent := stream.sent ++ [response] }, none)

/-- Struct `NameService`. -/
structure NameService where
  Namespace : ns.Namespace
  deriving DecidableEq, Repr

/-- The loop of `List` (and of `Get`) that turns the blocks of a namespace entry
into messages. -/
def convertBlocks : List ns.BlockMetadata → List BlockMetadata
  | [] => []
  | block :: rest => { BlockId := block.Block, PvId := block.PVID } :: convertBlocks rest

/-- The message that `List` appends to `pEntries` for a namespace entry. -/
def convertEntry (entry : ns.Entry) : Entry :=
  { Path := entry.Path,
    Size := entry.Size,
    ReplicationLevel := entry.ReplicationLevel,
    BlockSize := entry.BlockSize,
    LvId := entry.VolumeName,
    Permissions := entry.Permissions,
    Blocks := convertBlocks entry.Blocks }

/-- The closure that `NameService.List` passes to `Namespace.List`; its captured
variables are `pEntries` (a nil slice is the empty list) and `stream`. -/
def listVisitor : Visitor (List Entry × NameService_ListServer)
  | (pEntries, stream), _, some Err.EOF =>
    match stream.Send { Entries := pEntries } with
    | (stream1, some err) => ((pEntries, stream1), false, some err)
    | (stream1, none) => (([], stream1), false, some Err.EOF)
  | st, _, some err => (st, false, some err)
  | st, none, none => (st, false, some Err.runtimePanic)
  | (pEntries, stream), some entry, none =>
    if pEntries.length = DefaultListBatchSize then
      match stream.Send { Entries := pEntries } with
      | (stream1, some err) => ((pEntries, stream1), false, some err)
      | (stream1, none) => (([] ++ [convertEntry entry], stream1), true, none)
    else
      ((pEntries ++ [convertEntry entry], stream), true, none)

/-- Modelled from the spec: the generated message `GetRequest{path}`. -/
structure GetRequest where
  Path : Bytes
  deriving DecidableEq, Repr

/-- Modelled from the spec: the generated message `GetResponse{entry}`; `Entry` is
a pointer. -/
structure GetResponse where
  Entry : Option Entry
  deriving DecidableEq, Repr

/-- Modelled from the spec: the generated message `AddRequest{entry}`; `Entry` is
a pointer. -/
structure AddRequest where
  Entry : Option Entry
  deriving DecidableEq, Repr

/-- Modelled from the spec: the generated message `DeleteRequest{path}`. -/
structure DeleteRequest where
  Path : Bytes
  deriving DecidableEq, Repr

/-- Modelled from the spec: the generated message
`RenameRequest{source_path, destination_path}`. -/
structure RenameRequest where
  SourcePath : Bytes
  DestinationPath : Bytes
  deriving DecidableEq, Repr

/-- Modelled from the spec: the generated message `RenameResponse{success}`. -/
structure RenameResponse where
  Success : Bool
  deriving DecidableEq, Repr

/-- Method `NameService.Get`. -/
def NameService.Get (c : Codec) (this : NameService) (request : GetRequest) :
    Except Err GetResponse :=
  match Namespace.Get c this.Namespace request.Path with
  | Except.error err => Except.error err
  | Except.ok entry =>
    Except.ok
      { Entry := some
          { Path := entry.Path,
            LvId := entry.VolumeName,
            Blocks := convertBlocks entry.Blocks,
            Permissions := entry.Permissions % 2 ^ 32,
            BlockSize := entry.BlockSize,
            ReplicationLevel := entry.ReplicationLevel,
            Size := entry.Size } }

/-- The loop of `Add` that turns the blocks of a message into blocks of the
namespace, all with the logical volume of the entry. -/
def addRequestBlocks (lvId : Bytes) : List BlockMetadata → List ns.BlockMetadata
  | [] => []
  | pBlock :: rest =>
    { Block := pBlock.BlockId, LVName := lvId, PVID := pBlock.PvId } ::
      addRequestBlocks lvId rest

/-- The namespace entry `&ns.Entry{...}` that `Add` builds from the entry of the
request; the conversion `uint8(request.Entry.Permissions)` keeps the low eight
bits, and the two times keep their zero value. -/
def addRequestEntry (pEntry : Entry) : ns.Entry :=
  { Path := pEntry.Path,
    VolumeName := pEntry.LvId,
    Blocks := addRequestBlocks pEntry.LvId pEntry.Blocks,
    Permissions := pEntry.Permissions % 2 ^ 8,
    Status := FileStatus_OK,
    BlockSize := pEntry.BlockSize,
    Size := pEntry.Size,
    ReplicationLevel := pEntry.ReplicationLevel,
    Ctime := 0,
    Mtime := 0 }

/-- Method `NameService.Add`: the service afterwards and the returned error; a
nil `request.Entry` is dereferenced. -/
def NameService.Add (c : Codec) (this : NameService) (request : AddRequest) :
    NameService × Option Err :=
  match request.Entry with
  | none => (this, some Err.runtimePanic)
  | some pEntry =>
    let r := Namespace.Add c this.Namespace (addRequestEntry pEntry)
    ({ Namespace := r.1 }, r.2)

/-- Method `NameService.Delete`.  Modelled from the spec: the call in
`nameservice.go` has the one-argument form `Namespace.Delete(path)` of another
revision of the namespace; the server-side default is non-recursive. -/
def NameService.Delete (c : Codec) (this : NameService) (request : DeleteRequest) :
    NameService × Option Err :=
  let r := Namespace.Delete c this.Namespace request.Path false
  ({ Namespace := r.1 }, r.2.2)

/-- Method `NameService.Rename`. -/
def NameService.Rename (c : Codec) (this : NameService) (request : RenameRequest) :
    NameService × Except Err RenameResponse :=
  let r := Namespace.Rename c this.Namespace request.SourcePath request.DestinationPath
  match r.2.2 with
  | some err => ({ Namespace := r.1 }, Except.error err)
  | none => ({ Namespace := r.1 }, Except.ok { Success := r.2.1 })

/-- Method `NameService.List`: the stream afterwards and the returned error. -/
def NameService.List (c : Codec) (this : NameService) (request : ListRequest)
    (stream : NameService_ListServer) : NameService_ListServer × Option Err :=
  let r := Namespace.List c this.Namespace request.StartKey request.EndKey listVisitor
    ([], stream)
  (r.1.2, r.2)

end nameservice

/-! ## Package `client`: routing, rename across hosts, the list producer

The client is written against the generated `NameServiceClient` interface and
the connection cache of the package `lru`; neither is among the sources.  They
are the parameter `Remote`, whose calls act on a state `W` of everything outside
the client.  Watches and the coordination store are left out. -/

namespace client

open ns nameservice

/-- Modelled from the spec: the record `config.HostConfig` with its id, host name
and `NameServiceConfig.AdvertiseAddress`. -/
structure HostConfig where
  Id : Bytes
  Hostname : Bytes
  AdvertiseAddress : Bytes
  deriving DecidableEq, Repr

/-- The ring `consistent.Consistent` of the hashing library: the host ids added
to it, and the place on the ring that the library hashes a name to. -/
structure Consistent where
  members : List Bytes
  locate : Bytes → Nat

/-- Call `hash.Get(name)`: `ErrEmptyCircle` on an empty ring, one of the members
otherwise. -/
def Consistent.Get (this : Consistent) (name : Bytes) : Except Err Bytes :=
  match this.members with
  | [] => Except.error Err.emptyCircle
  | m :: rest => Except.ok ((m :: rest).getD (this.locate name % (rest.length + 1)) m)

/-- Struct `serviceClient`: the connection, named by the endpoint it was dialled
to; `nameClient` and `blockClient` are stubs over it. -/
structure serviceClient where
  conn : Bytes
  deriving DecidableEq, Repr

/-- Modelled from the spec: a per-host list stream as its `Recv` delivers it: the
responses, then the error that ends it (`io.EOF` or a transport error). -/
structure ListStream where
  responses : List ListResponse
  ending : Err
  deriving DecidableEq, Repr

/-- Modelled from the spec: the connection cache (`clientLRU.Get`) and the stubs
of the generated `NameServiceClient`, acting on a state `W` of the services. -/
structure Remote (W : Type) where
  lruGet : W → Bytes → W × Except Err serviceClient
  nameClient_Get : W → serviceClient → GetRequest → W × Except Err GetResponse
  nameClient_Add : W → serviceClient → AddRequest → W × Option Err
  nameClient_Delete : W → serviceClient → DeleteRequest → W × Option Err
  nameClient_Rename : W → serviceClient → RenameRequest → W × Except Err RenameResponse
  nameClient_List : W → serviceClient → ListRequest → W × Except Err ListStream

/-- Struct `Client`: the ring and the map of host records (in the order a `range`
over the map takes). -/
structure Client where
  hash : Consistent
  hostConfigs : List (Bytes × HostConfig)

/-- Method `Client.connectionForPath`; an error stands for the return of
`nil, "", err`, and indexing the map with an unknown host id dereferences nil. -/
def Client.connectionForPath {W : Type} (R : Remote W) (this : Client) (w : W) (path : Bytes) :
    W × Except Err (serviceClient × Bytes) :=
  match this.hash.Get path with
  | Except.error err => (w, Except.error err)
  | Except.ok hostId =>
    match this.hostConfigs.lookup hostId with
    | none => (w, Except.error Err.runtimePanic)
    | some hostConfig =>
      match R.lruGet w hostConfig.AdvertiseAddress with
      | (w1, Except.error err) => (w1, Except.error err)
      | (w1, Except.ok obj) => (w1, Except.ok (obj, hostId))

/-- Modelled from the spec: `file.NewReader(...)` and `reader.Open()` of the
package `file`, which is not among the sources: Open fetches the entry metadata
with a `Get`. -/
def readerOpen {W : Type} (R : Remote W) (w : W) (conn : serviceClient) (path : Bytes) :
    W × Option Err :=
  match R.nameClient_Get w conn { Path := path } with
  | (w1, Except.error err) => (w1, some err)
  | (w1, Except.ok _) => (w1, none)

/-- Method `Client.Open`: the returned error. -/
def Client.Open {W : Type} (R : Remote W) (this : Client) (w : W) (path : Bytes) :
    W × Option Err :=
  match Client.connectionForPath R this w path with
  | (w1, Except.error err) => (w1, some err)
  | (w1, Except.ok (conn, _)) => readerOpen R w1 conn path

/-- Method `Client.Stat`.  The error of `connectionForPath` is not tested: when
there is one, `conn` is nil and `conn.nameClient` dereferences it. -/
def Client.Stat {W : Type} (R : Remote W) (this : Client) (w : W) (path : Bytes) :
    W × Except Err (Option nameservice.Entry) :=
  match Client.connectionForPath R this w path with
  | (w1, Except.error _) => (w1, Except.error Err.runtimePanic)
  | (w1, Except.ok (conn, _)) =>
    match R.nameClient_Get w1 conn { Path := path } with
    | (w2, Except.error err) => (w2, Except.error err)
    | (w2, Except.ok getResp) => (w2, Except.ok getResp.Entry)

/-- Method `Client.Remove`. -/
def Client.Remove {W : Type} (R : Remote W) (this : Client) (w : W) (path : Bytes) :
    W × Option Err :=
  match Client.connectionForPath R this w path with
  | (w1, Except.error err) => (w1, some err)
  | (w1, Except.ok (conn, _)) => R.nameClient_Delete w1 conn { Path := path }

/-- Method `Client.Rename`. -/
def Client.Rename {W : Type} (R : Remote W) (this : Client) (w : W)
    (sourcePath destinationPath : Bytes) : W × Option Err :=
  match Client.connectionForPath R this w sourcePath with
  | (w1, Except.error err) => (w1, some err)
  | (w1, Except.ok (sourceConn, sourceHostId)) =>
    match Client.connectionForPath R this w1 destinationPath with
    | (w2, Except.error err) => (w2, some err)
    | (w2, Except.ok (destConn, destHostId)) =>
      if sourceHostId ≠ destHostId then
        match R.nameClient_Get w2 sourceConn { Path := sourcePath } with
        | (w3, Except.error err) => (w3, some err)
        | (w3, Except.ok getResp) =>
          match R.nameClient_Add w3 destConn { Entry := getResp.Entry } with
          | (w4, some err) => (w4, some err)
          | (w4, none) => R.nameClient_Delete w4 sourceConn { Path := sourcePath }
      else
        match R.nameClient_Rename w2 sourceConn
            { SourcePath := sourcePath, DestinationPath := destinationPath } with
        | (w3, Except.error err) => (w3, some err)
        | (w3, Except.ok _) => (w3, none)

/-- The channel `iterChan` as its producer sees it: the entries sent, and whether
it was closed. -/
structure Chan where
  sent : List nameservice.Entry
  closed : Bool
  deriving DecidableEq, Repr

/-- Statement `iterChan <- entry`: a send on a closed channel panics. -/
def Chan.send (ch : Chan) (entry : nameservice.Entry) : Except Err Chan :=
  if ch.closed then Except.error Err.runtimePanic
  else Except.ok { ch with sent := ch.sent ++ [entry] }

/-- Statement `close(iterChan)`: closing a closed channel panics. -/
def Chan.close (ch : Chan) : Except Err Chan :=
  if ch.closed then Except.error Err.runtimePanic
  else Except.ok { ch with closed := true }

/-- The loop `for _, entry := range resp.Entries` of `List`. -/
def sendEntries : List nameservice.Entry → Chan → Except Err Chan
  | [], ch => Except.ok ch
  | entry :: rest, ch =>
    match ch.send entry with
    | Except.error err => Except.error err
    | Except.ok ch1 => sendEntries rest ch1

/-- The loop `for { resp, err := listStream.Recv() ... }` of `List`: at `io.EOF`
it breaks; at another error it closes the channel and breaks. -/
def recvLoop : List ListResponse → Err → Chan → Except Err Chan
  | [], ending, ch => if ending = Err.EOF then Except.ok ch else ch.close
  | resp :: rest, ending, ch =>
    match sendEntries resp.Entries ch with
    | Except.error err => Except.error err
    | Except.ok ch1 => recvLoop rest ending ch1

/-- The loop `for _, hostConfig := range this.hostConfigs` of the producer of
`List`.  The result is a panic, or the channel and whether the producer has
returned from inside the loop. -/
def listHosts {W : Type} (R : Remote W) (request : ListRequest) :
    List HostConfig → W → Chan → W × Except Err (Chan × Bool)
  | [], w, ch => (w, Except.ok (ch, false))
  | hostConfig :: rest, w, ch =>
    match R.lruGet w hostConfig.AdvertiseAddress with
    | (w1, Except.error _) =>
      match ch.close with
      | Except.error err => (w1, Except.error err)
      | Except.ok ch1 => (w1, Except.ok (ch1, true))
    | (w1, Except.ok conn) =>
      match R.nameClient_List w1 conn request with
      | (w2, Except.error _) =>
        match ch.close with
        | Except.error err => (w2, Except.error err)
        | Except.ok ch1 => (w2, Except.ok (ch1, true))
      | (w2, Except.ok listStream) =>
        match recvLoop listStream.responses listStream.ending ch with
        | Except.error err => (w2, Except.error err)
        | Except.ok ch1 => listHosts R request rest w2 ch1

/-- The producer of `Client.List`, run to its end: a panic, or the channel as the
producer leaves it. -/
def Client.List {W : Type} (R : Remote W) (this : Client) (w : W) (startKey endKey : Bytes) :
    W × Except Err Chan :=
  match listHosts R { StartKey := startKey, EndKey := endKey }
      (this.hostConfigs.map (fun kv => kv.2)) w { sent := [], closed := false } with
  | (w1, Except.error err) => (w1, Except.error err)
  | (w1, Except.ok (ch, true)) => (w1, Except.ok ch)
  | (w1, Except.ok (ch, false)) => (w1, ch.close)

/-! ### A network of name services

One instance of `Remote`: every address runs a `NameService`, an RPC reaches it
unless the transport fails it, and then runs the method of the service. -/

/-- The methods of the name service. -/
inductive Method where
  | Get
  | Add
  | Delete
  | Rename
  | List
  deriving DecidableEq, Repr

/-- An RPC: the endpoint it is sent to and the method. -/
structure Call where
  address : Bytes
  method : Method
  deriving DecidableEq, Repr

/-- Modelled from the spec: the services behind the connections.  `servers` is
the name service that runs at each address, `broken` the RPCs that fail in
transport before they reach their service, `cut` the number of responses after
which the list stream of an address breaks, and `calls` the RPCs issued. -/
structure Net where
  servers : List (Bytes × NameService)
  broken : List Call
  cut : List (Bytes × Nat)
  calls : List Call
  deriving DecidableEq, Repr

/-- Replaces the service that runs at an address. -/
def setServer (address : Bytes) (svc : NameService) :
    List (Bytes × NameService) → List (Bytes × NameService)
  | [] => []
  | (a, s) :: rest =>
    if a = address then (a, svc) :: rest else (a, s) :: setServer address svc rest

/-- Records an RPC and delivers it: the service that receives it, if any. -/
def Net.issue (w : Net) (call : Call) : Net × Option NameService :=
  let w1 := { w with calls := w.calls ++ [call] }
  if call ∈ w.broken then (w1, none) else (w1, w.servers.lookup call.address)

/-- Modelled from the spec: the connection cache and the stubs over a network
of name services. -/
def netRemote (c : Codec) : Remote Net :=
  { lruGet := fun w address =>
      match w.servers.lookup address with
      | none => (w, Except.error Err.dial)
      | some _ => (w, Except.ok { conn := address }),
    nameClient_Get := fun w conn request =>
      match w.issue { address := conn.conn, method := Method.Get } with
      | (w1, none) => (w1, Except.error Err.transport)
      | (w1, some svc) => (w1, NameService.Get c svc request),
    nameClient_Add := fun w conn request =>
      match w.issue { address := conn.conn, method := Method.Add } with
      | (w1, none) => (w1, some Err.transport)
      | (w1, some svc) =>
        ({ w1 with servers := setServer conn.conn (NameService.Add c svc request).1 w1.servers },
          (NameService.Add c svc request).2),
    nameClient_Delete := fun w conn request =>
      match w.issue { address := conn.conn, method := Method.Delete } with
      | (w1, none) => (w1, some Err.transport)
      | (w1, some svc) =>
        ({ w1 with
            servers := setServer conn.conn (NameService.Delete c svc request).1 w1.servers },
          (NameService.Delete c svc request).2),
    nameClient_Rename := fun w conn request =>
      match w.issue { address := conn.conn, method := Method.Rename } with
      | (w1, none) => (w1, Except.error Err.transport)
      | (w1, some svc) =>
        ({ w1 with
            servers := setServer conn.conn (NameService.Rename c svc request).1 w1.servers },
          (NameService.Rename c svc request).2),
    nameClient_List := fun w conn request =>
      match w.issue { address := conn.conn, method := Method.List } with
      | (w1, none) => (w1, Except.error Err.transport)
      | (w1, some svc) =>
        match NameService.List c svc request { sent := [], budget := none } with
        | (_, some err) => (w1, Except.ok { responses := [], ending := err })
        | (stream, none) =>
          match w.cut.lookup conn.conn with
          | none => (w1, Except.ok { responses := stream.sent, ending := Err.EOF })
          | some k =>
            (w1, Except.ok { responses := stream.sent.take k, ending := Err.transport }) }

end client

/-! ## Vocabulary of the properties -/

open ns

instance exceptDecEq {ε α : Type} [DecidableEq ε] [DecidableEq α] : DecidableEq (Except ε α)
  | Except.ok a, Except.ok b =>
    if h : a = b then isTrue (by rw [h]) else isFalse (fun h1 => h (by cases h1; rfl))
  | Except.error a, Except.error b =>
    if h : a = b then isTrue (by rw [h]) else isFalse (fun h1 => h (by cases h1; rfl))
  | Except.ok _, Except.error _ => isFalse (fun h => by cases h)
  | Except.error _, Except.ok _ => isFalse (fun h => by cases h)

/-- The rows are in strictly ascending key order: the database is an ordered map. -/
def Sorted (db : Store) : Prop :=
  db.Pairwise (fun r1 r2 => bytesLt r1.1 r2.1 = true)

instance (db : Store) : Decidable (Sorted db) := by
  unfold Sorted; infer_instance

/-- A row with a sound key and value: the key has its table byte, and the value
of an Entry row decodes to an entry whose path is the rest of the key. -/
def rowOK (c : Codec) (r : Row) : Bool :=
  match r.1 with
  | [] => false
  | b :: p =>
    if b = dbPrefix_Entry then
      match c.unmarshalEntry r.2 with
      | some e => decide (e.Path = p)
      | none => false
    else true

/-- An ordered database in which every Entry row decodes to an entry whose path
is the path of its key.  The namespace keeps it so as long as the codec gives
back the entries written (`reachable_ok`); `Add` of an entry whose path the
codec alters writes a row that breaks it. -/
def StoreOK (c : Codec) (db : Store) : Prop :=
  Sorted db ∧ ∀ r ∈ db, rowOK c r = true

instance (c : Codec) (db : Store) : Decidable (StoreOK c db) := by
  unfold StoreOK; infer_instance

/-- The codec gives back the entry it wrote. -/
def Lossless (c : Codec) (e : ns.Entry) : Prop :=
  ∀ v, c.marshalEntry e = some v → c.unmarshalEntry v = some e

/-- The entry stored under a path: the decoded value of its Entry row. -/
def storedEntry (c : Codec) (db : Store) (path : Bytes) : Option ns.Entry :=
  match dbGet db (keyFor dbPrefix_Entry path) with
  | none => none
  | some v => c.unmarshalEntry v

/-- The condition `from <= p < to` on a path, an empty `to` being no upper bound
(an empty `from` is below every path). -/
def pathInRange (from_ to_ p : Bytes) : Bool :=
  !bytesLt p from_ && (to_ == [] || bytesLt p to_)

/-- The stored entries whose path lies in the range, in the order of the rows. -/
def entriesInRange (c : Codec) (db : Store) (from_ to_ : Bytes) : List ns.Entry :=
  db.filterMap (fun r =>
    match r.1 with
    | [] => none
    | b :: p =>
      if b = dbPrefix_Entry ∧ pathInRange from_ to_ p = true then c.unmarshalEntry r.2
      else none)

/-- The entries that the loop of `List` decodes from the rows of an iterator:
the values of the rows whose key starts with the Entry table byte. -/
def decodeRows (c : Codec) (rows : List Row) : List ns.Entry :=
  rows.filterMap (fun r =>
    match r.1 with
    | [] => none
    | b :: _ => if b = dbPrefix_Entry then c.unmarshalEntry r.2 else none)

/-- A visitor that records each call and always asks to continue. -/
def recordVisitor : Visitor (List (Option ns.Entry × Option Err)) :=
  fun calls entry err => (calls ++ [(entry, err)], true, none)

/-- The row belongs to the Entry table and its path starts with `path`. -/
def entryRowUnder (path : Bytes) (r : Row) : Bool :=
  match r.1 with
  | [] => false
  | b :: p => decide (b = dbPrefix_Entry) && hasPrefix p path

/-- The last block of the list that carries the block id. -/
def lastBlock : List ns.BlockMetadata → Bytes → Option ns.BlockMetadata
  | [], _ => none
  | b :: rest, id =>
    match lastBlock rest id with
    | some b1 => some b1
    | none => if b.Block = id then some b else none

/-- The test of the visitor of `Delete` on the path of an entry: under `path`
when recursive, equal to `path` otherwise. -/
def deleteMatches (path : Bytes) (recursive : Bool) (q : Bytes) : Bool :=
  if recursive then hasPrefix q path else decide (q = path)

/-- The row belongs to the Entry table and its path passes the test of `Delete`. -/
def rowMatches (path : Bytes) (recursive : Bool) (r : Row) : Bool :=
  match r.1 with
  | [] => false
  | b :: p => decide (b = dbPrefix_Entry) && deleteMatches path recursive p

/-- The paths that the scan of `Delete` stages for deletion: those of the Entry
rows in front of the first Entry row that fails the test. -/
def deleteScan (path : Bytes) (recursive : Bool) : List Row → List Bytes
  | [] => []
  | ([], _) :: _ => []
  | (b :: p, _) :: rest =>
    if b ≠ dbPrefix_Entry then deleteScan path recursive rest
    else if deleteMatches path recursive p then p :: deleteScan path recursive rest
    else []

/-- The stored entries whose path starts with `path`, in the order of the rows. -/
def entriesUnder (c : Codec) (db : Store) (path : Bytes) : List ns.Entry :=
  (entriesInRange c db [] []).filter (fun e => hasPrefix e.Path path)

/-- Every operation of the namespace is refused with the state-violation error,
the namespace (store and state) stays as it is, and `List` leaves the state of
any visitor untouched: it makes no call, so a recording visitor records none. -/
def Refuses (c : Codec) (n : Namespace) : Prop :=
  (∀ e, Namespace.Add c n e = (n, some (Err.operationInState n.state))) ∧
  (∀ p, Namespace.Get c n p = Except.error (Err.operationInState n.state)) ∧
  (∀ (σ : Type) (visitor : Visitor σ) (s : σ) (from_ to_ : Bytes),
    Namespace.List c n from_ to_ visitor s = (s, some (Err.operationInState n.state))) ∧
  (∀ from_ to_, (Namespace.List c n from_ to_ recordVisitor []).1 = []) ∧
  (∀ p recursive,
    Namespace.Delete c n p recursive = (n, 0, some (Err.operationInState n.state))) ∧
  (∀ from_ to_,
    Namespace.Rename c n from_ to_ = (n, false, some (Err.operationInState n.state)))

/-- The namespaces that the operations produce from a fresh database directory
when the codec gives back each entry that `Add` and `Rename` write. -/
inductive Reachable (c : Codec) : Namespace → Prop where
  | fresh (path : Bytes) : Reachable c (New path [])
  | opened (n : Namespace) : Reachable c n → Reachable c (Namespace.Open n).1
  | added (n : Namespace) (e : ns.Entry) :
    Reachable c n → Lossless c e → Reachable c (Namespace.Add c n e).1
  | deleted (n : Namespace) (p : Bytes) (recursive : Bool) :
    Reachable c n → Reachable c (Namespace.Delete c n p recursive).1
  | renamed (n : Namespace) (from_ to_ : Bytes) :
    Reachable c n →
    (∀ e : ns.Entry, Namespace.Get c n from_ = Except.ok e →
      Lossless c { e with Path := to_ }) →
    Reachable c (Namespace.Rename c n from_ to_).1
  | closed (n : Namespace) : Reachable c n → Reachable c (Namespace.Close n).1

/-! ## Sample data -/

/-- The entry `/a.txt` of the package test: volume `/`, blocks `1` and `2`. -/
def entryA : ns.Entry :=
  { VolumeName := [47], Path := [47, 97, 46, 116, 120, 116],
    Blocks := [{ Block := [49], LVName := [47], PVID := [49] },
               { Block := [50], LVName := [47], PVID := [49] }],
    Permissions := 0, Status := 0, BlockSize := 0, Size := 0, ReplicationLevel := 0,
    Ctime := 0, Mtime := 0 }

/-- An entry without blocks at `path`. -/
def entryAt (path : Bytes) : ns.Entry :=
  { VolumeName := [47], Path := path, Blocks := [],
    Permissions := 0, Status := 0, BlockSize := 0, Size := 0, ReplicationLevel := 0,
    Ctime := 0, Mtime := 0 }

/-- An entry that lists the block id `1` twice, on two physical volumes. -/
def entryTwice : ns.Entry :=
  { VolumeName := [47], Path := [47, 98],
    Blocks := [{ Block := [49], LVName := [47], PVID := [49] },
               { Block := [49], LVName := [47], PVID := [50] }],
    Permissions := 0, Status := 0, BlockSize := 0, Size := 0, ReplicationLevel := 0,
    Ctime := 0, Mtime := 0 }

/-- A fresh namespace after `Open`. -/
def freshOpen : Namespace :=
  (Namespace.Open (New [100, 98] [])).1

/-- The namespace of the package test after its first `Add`. -/
def nsA : Namespace :=
  (Namespace.Add plainCodec freshOpen entryA).1

/-- The path `/d/1`. -/
def pathD1 : Bytes := [47, 100, 47, 49]

/-- The path `/d/2`. -/
def pathD2 : Bytes := [47, 100, 47, 50]

/-- The path `/e/1`. -/
def pathE1 : Bytes := [47, 101, 47, 49]

/-- The path `/d/`. -/
def pathD : Bytes := [47, 100, 47]

/-- The namespace of the recursive-delete scenario: `/d/1`, `/d/2`, `/e/1`. -/
def nsD : Namespace :=
  (Namespace.Add plainCodec
    (Namespace.Add plainCodec
      (Namespace.Add plainCodec nsA (entryAt pathD1)).1 (entryAt pathD2)).1 (entryAt pathE1)).1

/-- The four bytes of a number below `2 ^ 32`, the most significant first. -/
def path4 (i : Nat) : Bytes :=
  [i / 16777216 % 256, i / 65536 % 256, i / 256 % 256, i % 256]

/-- A database directory with `N` entries, at the paths `path4 0`, `path4 1`, ...,
and the row of the block id counter. -/
def bigDisk (N : Nat) : Store :=
  (List.range N).map
      (fun i => (keyFor dbPrefix_Entry (path4 i), putEntry (entryAt (path4 i)))) ++
    [(keyFor dbPrefix_GlobalMetadata blockIdKey, [0])]

/-- A namespace opened on a database that holds `2 ^ 32` entries. -/
def bigNamespace : Namespace :=
  (Namespace.Open (New [100, 98] (bigDisk 4294967296))).1

/-- A message entry at `/m` with the mode bits `0755`. -/
def wireEntry755 : nameservice.Entry :=
  { Path := [47, 109], LvId := [47], Blocks := [{ BlockId := [49], PvId := [49] }],
    Permissions := 493, BlockSize := 0, ReplicationLevel := 1, Size := 0 }

/-- A message entry at `/m` with the mode bits `0177`. -/
def wireEntry177 : nameservice.Entry :=
  { Path := [47, 109], LvId := [47], Blocks := [{ BlockId := [49], PvId := [49] }],
    Permissions := 127, BlockSize := 0, ReplicationLevel := 1, Size := 0 }

/-- The host ids `h1` and `h2`. -/
def hostId1 : Bytes := [104, 49]

/-- The second host id. -/
def hostId2 : Bytes := [104, 50]

/-- The address of the host `h1`. -/
def address1 : Bytes := [97, 49]

/-- The address of the host `h2`. -/
def address2 : Bytes := [97, 50]

/-- The paths `/a` and `/b`. -/
def pathA : Bytes := [47, 97]

/-- The second path. -/
def pathB : Bytes := [47, 98]

/-- A message entry at `/a`. -/
def wireEntryA : nameservice.Entry :=
  { Path := pathA, LvId := [47], Blocks := [{ BlockId := [49], PvId := [49] }],
    Permissions := 0, BlockSize := 0, ReplicationLevel := 1, Size := 0 }

/-- A client that knows the hosts `h1` and `h2`; its ring sends `/a` to `h1` and
every other path to `h2`. -/
def twoHostClient : client.Client :=
  { hash := { members := [hostId1, hostId2],
              locate := fun name => if name = pathA then 0 else 1 },
    hostConfigs :=
      [(hostId1, { Id := hostId1, Hostname := hostId1, AdvertiseAddress := address1 }),
       (hostId2, { Id := hostId2, Hostname := hostId2, AdvertiseAddress := address2 })] }

/-- A client whose ring is empty. -/
def emptyRingClient : client.Client :=
  { hash := { members := [], locate := fun _ => 0 }, hostConfigs := [] }

/-- The name service of `h1` after `Add` of the entry at `/a`. -/
def serviceWithA : nameservice.NameService :=
  (nameservice.NameService.Add plainCodec { Namespace := freshOpen }
    { Entry := some wireEntryA }).1

/-- Two name services, the first with the entry `/a`; no transport failure. -/
def netTwo : client.Net :=
  { servers := [(address1, serviceWithA), (address2, { Namespace := freshOpen })],
    broken := [], cut := [], calls := [] }

/-- The network `netTwo` in which the `Delete` to `h1` fails in transport. -/
def netDeleteFails : client.Net :=
  { netTwo with broken := [{ address := address1, method := client.Method.Delete }] }

/-- The network `netTwo` in which the list stream of `h1` breaks at its first
`Recv`. -/
def netRecvFails : client.Net :=
  { netTwo with cut := [(address1, 0)] }

/-- A client that knows the host `h1` only. -/
def oneHostClient : client.Client :=
  { hash := { members := [hostId1], locate := fun _ => 0 },
    hostConfigs :=
      [(hostId1, { Id := hostId1, Hostname := hostId1, AdvertiseAddress := address1 })] }

/-- The one-byte path `\x80`, which is not valid UTF-8. -/
def path80 : Bytes := [128]

/-- The path `\xc2\x80`, the UTF-8 form of U+0080. -/
def pathC280 : Bytes := [194, 128]

/-- The one-byte path `\xff`, which is not valid UTF-8. -/
def pathFF : Bytes := [255]

/-- The path U+FFFD, the bytes EF BF BD. -/
def pathFFFD : Bytes := [239, 191, 189]

/-- A namespace after `Open` and `Add` at the paths `\x80` and `\xc2\x80`, with
the JSON coercion of strings. -/
def nsBad : Namespace :=
  (Namespace.Add jsonCodec (Namespace.Add jsonCodec freshOpen (entryAt path80)).1
    (entryAt pathC280)).1

/-- A namespace after `Open` and `Add` at the path `\xff`, with the JSON coercion
of strings. -/
def nsFF : Namespace :=
  (Namespace.Add jsonCodec freshOpen (entryAt pathFF)).1

/-- The namespace of the recursive-delete scenario built with the JSON codec:
`/a.txt`, `/d/1`, `/d/2`, `/e/1`. -/
def nsJ : Namespace :=
  (Namespace.Add jsonCodec
    (Namespace.Add jsonCodec
      (Namespace.Add jsonCodec
        (Namespace.Add jsonCodec freshOpen entryA).1 (entryAt pathD1)).1
      (entryAt pathD2)).1 (entryAt pathE1)).1

/-- A path of `/` and three ASCII bytes for a number below `2 ^ 21`. -/
def asciiPath (i : Nat) : Bytes :=
  [47, i / 16384 % 128, i / 128 % 128, i % 128]

/-- A database directory with `N` entries at ASCII paths and the row of the block
id counter. -/
def asciiDisk (N : Nat) : Store :=
  (List.range N).map
      (fun i => (keyFor dbPrefix_Entry (asciiPath i), putEntry (entryAt (asciiPath i)))) ++
    [(keyFor dbPrefix_GlobalMetadata blockIdKey, [0])]

/-- A namespace opened on a database that holds 513 entries. -/
def ns513 : Namespace :=
  (Namespace.Open (New [100, 98] (asciiDisk 513))).1

/-! ## The byte order -/

theorem bytesLt_cons_same (t : Nat) (a b : Bytes) : bytesLt (t :: a) (t :: b) = bytesLt a b := by
  simp [bytesLt]

theorem bytesLt_irrefl (a : Bytes) : bytesLt a a = false := by
  induction a with
  | nil => rfl
  | cons x xs ih => simp [bytesLt, ih]

theorem bytesLt_nil_right (a : Bytes) : bytesLt a [] = false := by
  cases a <;> rfl

theorem bytesLt_iff_lex (a b : Bytes) : bytesLt a b = true ↔ List.Lex (· < ·) a b := by
  induction a generalizing b with
  | nil =>
    cases b with
    | nil => simp [bytesLt]
    | cons y ys => simp [bytesLt, List.Lex.nil]
  | cons x xs ih =>
    cases b with
    | nil => simp [bytesLt]
    | cons y ys =>
      rcases Nat.lt_trichotomy x y with h | h | h
      · simp [bytesLt, h, List.Lex.rel h]
      · subst h
        simp [bytesLt, ih, List.Lex.cons_iff]
      · have h1 : ¬ x < y := by omega
        simp only [bytesLt, h1, h, if_true, if_false]
        constructor
        · intro hf; cases hf
        · intro hl
          cases hl with
          | cons _ => omega
          | rel hr => omega

theorem bytesLt_iff_lt (a b : Bytes) : bytesLt a b = true ↔ a < b :=
  bytesLt_iff_lex a b

theorem bytesLt_trans {a b c : Bytes} (h1 : bytesLt a b = true) (h2 : bytesLt b c = true) :
    bytesLt a c = true := by
  rw [bytesLt_iff_lt] at *
  exact lt_trans h1 h2

theorem bytesLt_asymm {a b : Bytes} (h1 : bytesLt a b = true) : bytesLt b a = false := by
  cases h : bytesLt b a with
  | false => rfl
  | true =>
    rw [bytesLt_iff_lt] at *
    exact absurd h1 (lt_asymm h)

theorem bytesLt_ne {a b : Bytes} (h1 : bytesLt a b = true) : a ≠ b := by
  intro h; subst h; rw [bytesLt_irrefl] at h1; cases h1

theorem bytesLt_total {a b : Bytes} (h1 : bytesLt a b = false) (h2 : bytesLt b a = false) :
    a = b := by
  have h1' : ¬ a < b := by rw [← bytesLt_iff_lt]; simp [h1]
  have h2' : ¬ b < a := by rw [← bytesLt_iff_lt]; simp [h2]
  rcases lt_trichotomy a b with h | h | h
  · exact absurd h h1'
  · exact h
  · exact absurd h h2'

theorem bytesLt_of_le_of_lt {a b c : Bytes} (h1 : bytesLt b a = false) (h2 : bytesLt b c = true) :
    bytesLt a c = true := by
  cases h : bytesLt a b with
  | true => exact bytesLt_trans h h2
  | false => rw [bytesLt_total h h1]; exact h2

theorem bytesLt_of_lt_of_le {a b c : Bytes} (h1 : bytesLt a b = true) (h2 : bytesLt c b = false) :
    bytesLt a c = true := by
  cases h : bytesLt b c with
  | true => exact bytesLt_trans h1 h
  | false => rw [← bytesLt_total h h2]; exact h1

theorem hasPrefix_refl (p : Bytes) : hasPrefix p p = true := by
  induction p with
  | nil => rfl
  | cons x xs ih => simp [hasPrefix, ih]

theorem hasPrefix_iff (q p : Bytes) : hasPrefix q p = true ↔ p <+: q := by
  induction p generalizing q with
  | nil => cases q <;> simp [hasPrefix]
  | cons x xs ih =>
    cases q with
    | nil => simp [hasPrefix]
    | cons y ys =>
      simp [hasPrefix, ih, List.cons_prefix_cons]
      intro _
      exact eq_comm

/-- Paths under a prefix are not below it. -/
theorem not_bytesLt_of_hasPrefix {q p : Bytes} (h : hasPrefix q p = true) :
    bytesLt q p = false := by
  induction p generalizing q with
  | nil => exact bytesLt_nil_right q
  | cons x xs ih =>
    cases q with
    | nil => simp [hasPrefix] at h
    | cons y ys =>
      simp [hasPrefix] at h
      obtain ⟨h1, h2⟩ := h
      subst h1
      simp [bytesLt, ih h2]

/-- In ascending order, the paths under a prefix `p` come before every other
path that is not below `p`. -/
theorem underPath_block {p q1 q2 : Bytes} (h1 : bytesLt q1 p = false)
    (h2 : hasPrefix q1 p = false) (h3 : hasPrefix q2 p = true) : bytesLt q1 q2 = false := by
  induction p generalizing q1 q2 with
  | nil => cases q1 <;> simp [hasPrefix] at h2
  | cons x xs ih =>
    cases q2 with
    | nil => simp [hasPrefix] at h3
    | cons y ys =>
      simp [hasPrefix] at h3
      obtain ⟨h3a, h3b⟩ := h3
      subst h3a
      cases q1 with
      | nil => simp [bytesLt] at h1
      | cons z zs =>
        rcases Nat.lt_trichotomy z y with h | h | h
        · simp [bytesLt, h] at h1
        · subst h
          simp [bytesLt] at h1
          simp [hasPrefix] at h2
          simp [bytesLt]
          exact ih h1 h2 h3b
        · have : ¬ z < y := by omega
          simp [bytesLt, this, h]

/-! ## The ordered store -/

theorem dbGet_dbPut (db : Store) (key value k : Bytes) :
    dbGet (dbPut db key value) k = if k = key then some value else dbGet db k := by
  induction db with
  | nil =>
    by_cases h : k = key
    · simp [dbPut, dbGet, h]
    · have h1 : key ≠ k := fun e => h e.symm
      simp [dbPut, dbGet, h, h1]
  | cons r rest ih =>
    obtain ⟨k0, v0⟩ := r
    simp only [dbPut]
    split
    · by_cases h : k = key
      · simp [dbGet, h]
      · have h1 : key ≠ k := fun e => h e.symm
        simp [dbGet, h, h1]
    · split
      · rename_i h0
        subst h0
        by_cases h : k = k0
        · simp [dbGet, h]
        · have h1 : k0 ≠ k := fun e => h e.symm
          simp [dbGet, h, h1]
      · rename_i h0
        by_cases h : k = key
        · subst h
          simp [dbGet, h0, ih]
        · simp only [dbGet, ih, h, if_false]

theorem dbGet_dbDelete (db : Store) (key k : Bytes) :
    dbGet (dbDelete db key) k = if k = key then none else dbGet db k := by
  induction db with
  | nil => simp [dbDelete, dbGet]
  | cons r rest ih =>
    obtain ⟨k0, v0⟩ := r
    unfold dbDelete at ih ⊢
    by_cases h0 : k0 = key
    · subst h0
      simp only [List.filter, ne_eq, not_true_eq_false, decide_False, ih, dbGet]
      by_cases h : k = k0
      · simp [h]
      · have h1 : k0 ≠ k := fun e => h e.symm
        simp [h, h1]
    · simp only [List.filter, ne_eq, h0, not_false_eq_true, decide_True, dbGet, ih]
      by_cases h : k = key
      · subst h
        simp [h0]
      · simp [h]

open status

/-! ## Add and Get -/

theorem mem_of_dbGet {db : Store} {k v : Bytes} (h : dbGet db k = some v) : (k, v) ∈ db := by
  induction db with
  | nil => simp [dbGet] at h
  | cons r rest ih =>
    obtain ⟨k0, v0⟩ := r
    simp only [dbGet] at h
    split at h
    · rename_i h0
      subst h0
      cases h
      exact List.mem_cons_self _ _
    · exact List.mem_cons_of_mem _ (ih h)

/-- The block loop of `Add` writes only rows of the BlockAssignment table. -/
theorem addBlocks_get_other (c : Codec) (bs : List ns.BlockMetadata) (db : Store) (k : Bytes)
    (hk : ∀ id, k ≠ keyFor dbPrefix_BlockAssignment id) :
    dbGet (addBlocks c db bs).1 k = dbGet db k := by
  induction bs generalizing db with
  | nil => rfl
  | cons b rest ih =>
    simp only [addBlocks]
    cases hm : c.marshalBlock b with
    | none => rfl
    | some value =>
      simp only []
      rw [ih, dbGet_dbPut, if_neg (hk _)]

/-- After a block loop that ends without an error, the row of each block id
that occurs holds the serialization of the last block with that id. -/
theorem addBlocks_get_block (c : Codec) (bs : List ns.BlockMetadata) (db : Store) (id : Bytes)
    (hok : (addBlocks c db bs).2 = none) :
    dbGet (addBlocks c db bs).1 (keyFor dbPrefix_BlockAssignment id) =
      match lastBlock bs id with
      | some b => c.marshalBlock b
      | none => dbGet db (keyFor dbPrefix_BlockAssignment id) := by
  induction bs generalizing db with
  | nil => rfl
  | cons b rest ih =>
    simp only [addBlocks] at hok ⊢
    cases hm : c.marshalBlock b with
    | none => rw [hm] at hok; cases hok
    | some value =>
      rw [hm] at hok
      simp only [] at hok ⊢
      rw [ih _ hok]
      simp only [lastBlock]
      cases hl : lastBlock rest id with
      | some b1 => rfl
      | none =>
        simp only [dbGet_dbPut]
        by_cases hb : b.Block = id
        · subst hb
          simp [hm]
        · have : ¬ keyFor dbPrefix_BlockAssignment id = keyFor dbPrefix_BlockAssignment b.Block := by
            intro h
            simp [keyFor] at h
            exact hb h.symm
          simp [hb, this]

theorem lastBlock_some {bs : List ns.BlockMetadata} {id : Bytes} {b1 : ns.BlockMetadata}
    (h : lastBlock bs id = some b1) : b1 ∈ bs ∧ b1.Block = id := by
  induction bs with
  | nil => simp [lastBlock] at h
  | cons x rest ih =>
    simp only [lastBlock] at h
    cases hl : lastBlock rest id with
    | some b2 =>
      rw [hl] at h
      cases h
      exact ⟨List.mem_cons_of_mem _ (ih hl).1, (ih hl).2⟩
    | none =>
      rw [hl] at h
      simp only [] at h
      split at h
      · rename_i hx
        cases h
        exact ⟨List.mem_cons_self _ _, hx⟩
      · cases h

theorem lastBlock_of_mem {bs : List ns.BlockMetadata} {b : ns.BlockMetadata} (h : b ∈ bs) :
    ∃ b1, lastBlock bs b.Block = some b1 := by
  induction bs with
  | nil => cases h
  | cons x rest ih =>
    simp only [lastBlock]
    cases hl : lastBlock rest b.Block with
    | some b1 => exact ⟨b1, rfl⟩
    | none =>
      rcases List.mem_cons.1 h with h1 | h1
      · subst h1
        exact ⟨b, by simp⟩
      · obtain ⟨b2, h2⟩ := ih h1
        rw [hl] at h2
        cases h2

/-- Entry read back after `Add`. -/
theorem get_after_add (c : Codec) (n : Namespace) (E : ns.Entry)
    (hopen : n.state = namespaceStatus_OPEN) (hadd : (Namespace.Add c n E).2 = none)
    (hloss : Lossless c E) :
    Namespace.Get c (Namespace.Add c n E).1 E.Path = Except.ok E := by
  simp only [Namespace.Add, hopen, ne_eq, not_true_eq_false, if_false] at hadd ⊢
  cases hm : c.marshalEntry E with
  | none => rw [hm] at hadd; cases hadd
  | some value =>
    simp only [Namespace.Get, hopen, ne_eq, not_true_eq_false, if_false]
    rw [addBlocks_get_other c E.Blocks _ _ (by intro id h; simp [keyFor, dbPrefix_Entry, dbPrefix_BlockAssignment] at h)]
    rw [dbGet_dbPut, if_pos rfl]
    simp only []
    rw [hloss value hm]

/-! ## The concrete codec is lossless -/

theorem getBytes_putBytes (b rest : Bytes) : getBytes (putBytes b ++ rest) = some (b, rest) := by
  simp [putBytes, getBytes]

theorem getInt_putInt (i : Int) (rest : Bytes) : getInt (putInt i ++ rest) = some (i, rest) := by
  by_cases h : i < 0
  · simp only [putInt, h, if_true, List.cons_append, List.nil_append, getInt]
    congr 2
    omega
  · simp only [putInt, h, if_false, List.cons_append, List.nil_append, getInt]
    congr 2
    simp
    omega

theorem getBlock_putBlock (b : ns.BlockMetadata) (rest : Bytes) :
    getBlock (putBlock b ++ rest) = some (b, rest) := by
  simp only [putBlock, getBlock, List.append_assoc, getBytes_putBytes]

theorem getBlocks_putBlocks (bs : List ns.BlockMetadata) (rest : Bytes) :
    getBlocks bs.length (putBlocks bs ++ rest) = some (bs, rest) := by
  induction bs with
  | nil => rfl
  | cons b tl ih =>
    simp only [List.length_cons, putBlocks, getBlocks, List.append_assoc, getBlock_putBlock, ih]

theorem getEntry_putEntry (e : ns.Entry) : getEntry (putEntry e) = some e := by
  simp only [putEntry, getEntry, List.append_assoc, getBytes_putBytes, List.cons_append,
    getBlocks_putBlocks, List.nil_append, getInt_putInt]
  have h := getInt_putInt e.Mtime []
  simp only [List.append_nil] at h
  simp only [h]

theorem plainCodec_lossless (e : ns.Entry) : Lossless plainCodec e := by
  intro v h
  simp only [plainCodec] at h ⊢
  cases h
  exact getEntry_putEntry e

/-- The codec `jsonCodec` gives back an entry whose strings are valid UTF-8. -/
theorem jsonCodec_lossless (e : ns.Entry) (h : coerceEntry e = e) : Lossless jsonCodec e := by
  intro v hv
  simp only [jsonCodec] at hv ⊢
  cases hv
  rw [getEntry_putEntry, h]


/-! ## Claims on Add, Get, Rename and the life cycle -/

theorem add_state (c : Codec) (n : Namespace) (E : ns.Entry) :
    (Namespace.Add c n E).1.state = n.state := by
  unfold Namespace.Add
  split
  · rfl
  · split <;> rfl

theorem addBlocks_marshal {c : Codec} {bs : List ns.BlockMetadata} {db : Store}
    (hok : (addBlocks c db bs).2 = none) : ∀ b ∈ bs, ∃ value, c.marshalBlock b = some value := by
  induction bs generalizing db with
  | nil => intro b hb; cases hb
  | cons x rest ih =>
    simp only [addBlocks] at hok
    cases hm : c.marshalBlock x with
    | none => rw [hm] at hok; cases hok
    | some value =>
      rw [hm] at hok
      intro b hb
      rcases List.mem_cons.1 hb with h | h
      · subst h; exact ⟨value, hm⟩
      · exact ih hok b h

/-- C1: on an open namespace, when `Add(E)` succeeds, `Get(E.Path)` succeeds and
returns `E` itself, hence equal to `E` in volume name, path, block list,
permissions, status, block size, size and replication level; the store is the
ordered byte-key map and the codec gives back the entry it wrote. -/
theorem add_get_roundtrip (c : Codec) (n : Namespace) (E : ns.Entry)
    (hopen : n.state = namespaceStatus_OPEN) (hadd : (Namespace.Add c n E).2 = none)
    (hloss : Lossless c E) :
    Namespace.Get c (Namespace.Add c n E).1 E.Path = Except.ok E :=
  get_after_add c n E hopen hadd hloss

theorem add_get_roundtrip_witness :
    freshOpen.state = namespaceStatus_OPEN ∧
    (Namespace.Add plainCodec freshOpen entryA).2 = none ∧
    Namespace.Get plainCodec (Namespace.Add plainCodec freshOpen entryA).1 entryA.Path =
      Except.ok entryA :=
  ⟨by decide, by decide,
    add_get_roundtrip plainCodec freshOpen entryA (by decide) (by decide)
      (plainCodec_lossless entryA)⟩

/-- C5: on an open namespace, `Get(p)` fails with the no-such-entry error exactly
when no Entry row is stored under `p`, and the path that the error carries is
`p`; when a row is stored, `Get(p)` returns the entry its value decodes to, and
in a store whose rows are as the namespace writes them that entry exists and
has path `p`. -/
theorem get_no_such_entry_iff (c : Codec) (n : Namespace) (p : Bytes)
    (hopen : n.state = namespaceStatus_OPEN) :
    ((∃ q, Namespace.Get c n p = Except.error (Err.noSuchEntry q)) ↔
      dbGet n.db (keyFor dbPrefix_Entry p) = none) ∧
    (∀ q, Namespace.Get c n p = Except.error (Err.noSuchEntry q) → q = p) ∧
    (∀ v e, dbGet n.db (keyFor dbPrefix_Entry p) = some v → c.unmarshalEntry v = some e →
      Namespace.Get c n p = Except.ok e) ∧
    ((∀ r ∈ n.db, rowOK c r = true) → ∀ v, dbGet n.db (keyFor dbPrefix_Entry p) = some v →
      ∃ e, e.Path = p ∧ Namespace.Get c n p = Except.ok e) := by
  simp only [Namespace.Get, hopen, ne_eq, not_true_eq_false, if_false]
  cases hg : dbGet n.db (keyFor dbPrefix_Entry p) with
  | none => simp
  | some v =>
    refine ⟨?_, ?_, ?_, ?_⟩
    · cases hu : c.unmarshalEntry v <;> simp [hu]
    · cases hu : c.unmarshalEntry v <;> simp [hu]
    · intro v1 e h1 h2
      cases h1
      simp [h2]
    · intro hrows v1 h1
      cases h1
      have hr := hrows _ (mem_of_dbGet hg)
      simp only [rowOK, keyFor, List.singleton_append, if_true] at hr
      cases hu : c.unmarshalEntry v with
      | none => rw [hu] at hr; simp at hr
      | some e =>
        rw [hu] at hr
        simp only [decide_eq_true_eq] at hr
        exact ⟨e, hr, by simp [hu]⟩

theorem get_no_such_entry_iff_witness :
    freshOpen.state = namespaceStatus_OPEN ∧
    Namespace.Get plainCodec freshOpen [47, 109] = Except.error (Err.noSuchEntry [47, 109]) ∧
    ((∃ q, Namespace.Get plainCodec freshOpen [47, 109] = Except.error (Err.noSuchEntry q)) ↔
      dbGet freshOpen.db (keyFor dbPrefix_Entry [47, 109]) = none) :=
  ⟨by decide, by decide, (get_no_such_entry_iff plainCodec freshOpen [47, 109] (by decide)).1⟩

/-- C8: the key of a path in the Entry table is below the key of another path,
in byte-lexicographic order, exactly when the first path is below the second;
`keyFor` is the table byte followed by the bytes of the key, nothing between
and no length in front. -/
theorem keyFor_entry_order (p1 p2 : Bytes) :
    (bytesLt (keyFor dbPrefix_Entry p1) (keyFor dbPrefix_Entry p2) = true ↔
      bytesLt p1 p2 = true) ∧
    (keyFor dbPrefix_Entry p1 < keyFor dbPrefix_Entry p2 ↔ p1 < p2) ∧
    (∀ table key, keyFor table key = table :: key) := by
  have h1 : bytesLt (keyFor dbPrefix_Entry p1) (keyFor dbPrefix_Entry p2) = bytesLt p1 p2 := by
    simp [keyFor, bytesLt]
  refine ⟨by rw [h1], ?_, fun _ _ => rfl⟩
  rw [← bytesLt_iff_lt, ← bytesLt_iff_lt, h1]

/-- C9 as stated fails: `entryTwice` lists the block id `1` twice; after `Add`
the row of that id holds the second block, not the first. -/
theorem add_block_rows_counterexample :
    freshOpen.state = namespaceStatus_OPEN ∧
    (Namespace.Add plainCodec freshOpen entryTwice).2 = none ∧
    ∃ b ∈ entryTwice.Blocks,
      dbGet (Namespace.Add plainCodec freshOpen entryTwice).1.db
        (keyFor dbPrefix_BlockAssignment b.Block) ≠ plainCodec.marshalBlock b := by
  decide

/-- C9, amended: on an open namespace, after `Add(E)` succeeds, for each block
`b` of `E.Blocks` the row `(BlockAssignment, b.Block)` exists and its value is
the serialization of the last block of `E.Blocks` that carries the id `b.Block`;
that is the serialization of `b` itself when every block of `E.Blocks` with
that id equals `b`. -/
theorem add_block_rows (c : Codec) (n : Namespace) (E : ns.Entry)
    (hopen : n.state = namespaceStatus_OPEN) (hadd : (Namespace.Add c n E).2 = none) :
    ∀ b ∈ E.Blocks, ∃ b1 value,
      lastBlock E.Blocks b.Block = some b1 ∧ b1 ∈ E.Blocks ∧ b1.Block = b.Block ∧
      c.marshalBlock b1 = some value ∧
      dbGet (Namespace.Add c n E).1.db (keyFor dbPrefix_BlockAssignment b.Block) = some value ∧
      ((∀ b2 ∈ E.Blocks, b2.Block = b.Block → b2 = b) → b1 = b) := by
  intro b hb
  simp only [Namespace.Add, hopen, ne_eq, not_true_eq_false, if_false] at hadd ⊢
  cases hm : c.marshalEntry E with
  | none => rw [hm] at hadd; cases hadd
  | some v =>
    rw [hm] at hadd
    simp only [] at hadd ⊢
    obtain ⟨b1, h1⟩ := lastBlock_of_mem hb
    obtain ⟨h2, h3⟩ := lastBlock_some h1
    obtain ⟨value, h4⟩ := addBlocks_marshal hadd b1 h2
    refine ⟨b1, value, h1, h2, h3, h4, ?_, fun hall => hall b1 h2 h3⟩
    rw [addBlocks_get_block c E.Blocks _ b.Block hadd, h1]
    exact h4

theorem add_block_rows_witness :
    freshOpen.state = namespaceStatus_OPEN ∧
    (Namespace.Add plainCodec freshOpen entryA).2 = none ∧
    ∀ b ∈ entryA.Blocks, ∃ b1 value,
      lastBlock entryA.Blocks b.Block = some b1 ∧ b1 ∈ entryA.Blocks ∧ b1.Block = b.Block ∧
      plainCodec.marshalBlock b1 = some value ∧
      dbGet (Namespace.Add plainCodec freshOpen entryA).1.db
        (keyFor dbPrefix_BlockAssignment b.Block) = some value ∧
      ((∀ b2 ∈ entryA.Blocks, b2.Block = b.Block → b2 = b) → b1 = b) :=
  ⟨by decide, by decide, add_block_rows plainCodec freshOpen entryA (by decide) (by decide)⟩

/-- C3 as stated fails in two ways.  When the new path is the old one, `Add` and
`Rename` succeed and `Get` of the new path fails with the no-such-entry error.
When the new path is `\xff` and strings are coerced as JSON does, `Add` and
`Rename` succeed and `Get("\xff")` returns the entry with the path U+FFFD. -/
theorem add_rename_get_counterexample :
    (Namespace.Add jsonCodec freshOpen entryA).2 = none ∧
    (Namespace.Rename jsonCodec (Namespace.Add jsonCodec freshOpen entryA).1
      entryA.Path pathFF).2.2 = none ∧
    Namespace.Get jsonCodec
      (Namespace.Rename jsonCodec (Namespace.Add jsonCodec freshOpen entryA).1
        entryA.Path pathFF).1 pathFF = Except.ok { entryA with Path := pathFFFD } ∧
    Namespace.Get jsonCodec
      (Namespace.Rename jsonCodec (Namespace.Add jsonCodec freshOpen entryA).1
        entryA.Path pathFF).1 pathFF ≠ Except.ok { entryA with Path := pathFF } ∧
    freshOpen.state = namespaceStatus_OPEN ∧
    (Namespace.Add plainCodec freshOpen entryA).2 = none ∧
    (Namespace.Rename plainCodec (Namespace.Add plainCodec freshOpen entryA).1
      entryA.Path entryA.Path).2.2 = none ∧
    Namespace.Get plainCodec
      (Namespace.Rename plainCodec (Namespace.Add plainCodec freshOpen entryA).1
        entryA.Path entryA.Path).1 entryA.Path =
      Except.error (Err.noSuchEntry entryA.Path) ∧
    Namespace.Get plainCodec
      (Namespace.Rename plainCodec (Namespace.Add plainCodec freshOpen entryA).1
        entryA.Path entryA.Path).1 entryA.Path ≠
      Except.ok { entryA with Path := entryA.Path } := by
  decide

/-- C3, amended: on an open namespace, for an entry `E` and a path `P'`
different from `E.Path` such that serialization gives back `E`, and `E` with the
path `P'`, as written: after `Add(E)` and then `Rename(E.Path, P')` both
succeed, `Get(P')` returns `E` with its path replaced by `P'` and every other
field, the block list included, unchanged, and `Get(E.Path)` fails with the
no-such-entry error. -/
theorem add_rename_get (c : Codec) (n : Namespace) (E : ns.Entry) (P' : Bytes)
    (hopen : n.state = namespaceStatus_OPEN) (hadd : (Namespace.Add c n E).2 = none)
    (hren : (Namespace.Rename c (Namespace.Add c n E).1 E.Path P').2.2 = none)
    (hne : P' ≠ E.Path)
    (hloss : Lossless c E) (hloss' : Lossless c { E with Path := P' }) :
    Namespace.Get c (Namespace.Rename c (Namespace.Add c n E).1 E.Path P').1 P' =
      Except.ok { E with Path := P' } ∧
    Namespace.Get c (Namespace.Rename c (Namespace.Add c n E).1 E.Path P').1 E.Path =
      Except.error (Err.noSuchEntry E.Path) := by
  have hst : (Namespace.Add c n E).1.state = namespaceStatus_OPEN := by
    rw [add_state]; exact hopen
  have hget := get_after_add c n E hopen hadd hloss
  simp only [Namespace.Rename, hst, ne_eq, not_true_eq_false, if_false, hget] at hren ⊢
  cases hm : c.marshalEntry { E with Path := P' } with
  | none => rw [hm] at hren; cases hren
  | some value =>
    have hk : ¬ keyFor dbPrefix_Entry P' = keyFor dbPrefix_Entry E.Path := by
      simp [keyFor, hne]
    simp only [Namespace.Get, hst, ne_eq, not_true_eq_false, if_false, dbWrite,
      dbGet_dbDelete, dbGet_dbPut, hk, if_true, hloss' value hm]
    exact ⟨trivial, trivial⟩

theorem add_rename_get_witness :
    freshOpen.state = namespaceStatus_OPEN ∧
    (Namespace.Add jsonCodec freshOpen entryA).2 = none ∧
    (Namespace.Rename jsonCodec (Namespace.Add jsonCodec freshOpen entryA).1
      entryA.Path pathD1).2.2 = none ∧
    pathD1 ≠ entryA.Path ∧
    Lossless jsonCodec entryA ∧ Lossless jsonCodec { entryA with Path := pathD1 } ∧
    Namespace.Get jsonCodec
      (Namespace.Rename jsonCodec (Namespace.Add jsonCodec freshOpen entryA).1
        entryA.Path pathD1).1 pathD1 = Except.ok { entryA with Path := pathD1 } ∧
    Namespace.Get jsonCodec
      (Namespace.Rename jsonCodec (Namespace.Add jsonCodec freshOpen entryA).1
        entryA.Path pathD1).1 entryA.Path = Except.error (Err.noSuchEntry entryA.Path) :=
  ⟨by decide, by decide, by decide, by decide,
    jsonCodec_lossless _ (by decide), jsonCodec_lossless _ (by decide),
    add_rename_get jsonCodec freshOpen entryA pathD1 (by decide) (by decide) (by decide)
      (by decide) (jsonCodec_lossless _ (by decide)) (jsonCodec_lossless _ (by decide))⟩

/-- C6: in a namespace whose state is not Open, each of `Add`, `Get`, `List`,
`Delete` and `Rename` returns the state-violation error, leaves store and state
as they are, and `List` does not call the visitor; after `Open` then `Close`
the state is Closed, so every operation is refused. -/
theorem refused_unless_open (c : Codec) (n n0 : Namespace)
    (hstate : n.state ≠ namespaceStatus_OPEN) (hopened : (Namespace.Open n0).2 = none) :
    Refuses c n ∧
    (Namespace.Close (Namespace.Open n0).1).2 = none ∧
    (Namespace.Close (Namespace.Open n0).1).1.state = namespaceStatus_CLOSED ∧
    Refuses c (Namespace.Close (Namespace.Open n0).1).1 := by
  have key : ∀ m : Namespace, m.state ≠ namespaceStatus_OPEN → Refuses c m := by
    intro m hm
    refine ⟨?_, ?_, ?_, ?_, ?_, ?_⟩
    · intro e; simp [Namespace.Add, hm]
    · intro p; simp [Namespace.Get, hm]
    · intro σ visitor s from_ to_; simp [Namespace.List, hm]
    · intro from_ to_; simp [Namespace.List, hm]
    · intro p recursive; simp [Namespace.Delete, hm]
    · intro from_ to_; simp [Namespace.Rename, hm]
  have hinit : n0.state = namespaceStatus_INITIAL := by
    by_contra h
    simp [Namespace.Open, h] at hopened
  have hclosed : (Namespace.Close (Namespace.Open n0).1).1.state = namespaceStatus_CLOSED := by
    simp [Namespace.Open, Namespace.Close, hinit]
  refine ⟨key n hstate, ?_, hclosed, key _ (by rw [hclosed]; decide)⟩
  simp [Namespace.Open, Namespace.Close, hinit]

theorem refused_unless_open_witness :
    (New [100, 98] []).state ≠ namespaceStatus_OPEN ∧
    (Namespace.Open (New [100, 98] [])).2 = none ∧
    Refuses plainCodec (New [100, 98] []) ∧
    Refuses plainCodec (Namespace.Close (Namespace.Open (New [100, 98] [])).1).1 :=
  ⟨by decide, by decide,
    (refused_unless_open plainCodec (New [100, 98] []) (New [100, 98] []) (by decide)
      (by decide)).1,
    (refused_unless_open plainCodec (New [100, 98] []) (New [100, 98] []) (by decide)
      (by decide)).2.2.2⟩

/-! ## The scan of List -/

/-- The Entry rows that the iterator of `List` walks through are the Entry rows
with a path in the range. -/
theorem decodeRows_dbIter (c : Codec) (db : Store) (from_ to_ : Bytes) :
    decodeRows c (dbIter db
      (if from_ ≠ [] then some (keyFor dbPrefix_Entry from_) else none)
      (if to_ ≠ [] then some (keyFor dbPrefix_Entry to_) else none)) =
    entriesInRange c db from_ to_ := by
  unfold decodeRows dbIter entriesInRange
  rw [List.filterMap_filter]
  congr 1
  funext r
  obtain ⟨k, v⟩ := r
  cases k with
  | nil => simp
  | cons b p =>
    by_cases hb : b = dbPrefix_Entry
    · subst hb
      have h : inRange (if from_ ≠ [] then some (keyFor dbPrefix_Entry from_) else none)
          (if to_ ≠ [] then some (keyFor dbPrefix_Entry to_) else none) (dbPrefix_Entry :: p) =
          pathInRange from_ to_ p := by
        unfold inRange pathInRange
        congr 1
        · by_cases hf : from_ = []
          · simp [hf, bytesLt_nil_right]
          · simp [hf, keyFor, bytesLt]
        · by_cases ht : to_ = []
          · simp [ht]
          · simp [ht, keyFor, bytesLt]
      simp only [h, true_and, if_true]
    · simp [hb]

theorem dbGet_of_mem {db : Store} (hs : Sorted db) {k v : Bytes} (h : (k, v) ∈ db) :
    dbGet db k = some v := by
  induction db with
  | nil => cases h
  | cons r rest ih =>
    obtain ⟨k0, v0⟩ := r
    unfold Sorted at hs
    rw [List.pairwise_cons] at hs
    rcases List.mem_cons.1 h with h1 | h1
    · cases h1
      simp [dbGet]
    · have hlt := hs.1 _ h1
      have hne : k0 ≠ k := bytesLt_ne hlt
      simp only [dbGet, hne, if_false]
      exact ih hs.2 h1

/-- In a store that satisfies `StoreOK`, the entries of a range are in strictly
ascending path order. -/
theorem entriesInRange_ascending (c : Codec) (db : Store) (hok : StoreOK c db)
    (from_ to_ : Bytes) :
    (entriesInRange c db from_ to_).Pairwise (fun e1 e2 => bytesLt e1.Path e2.Path = true) := by
  unfold entriesInRange
  rw [List.pairwise_filterMap]
  have hs : Sorted db := hok.1
  unfold Sorted at hs
  refine List.Pairwise.imp_of_mem ?_ hs
  intro r1 r2 h1 h2 hlt e1 he1 e2 he2
  have ok1 := hok.2 r1 h1
  have ok2 := hok.2 r2 h2
  obtain ⟨k1, v1⟩ := r1
  obtain ⟨k2, v2⟩ := r2
  cases k1 with
  | nil => simp at he1
  | cons b1 p1 =>
    cases k2 with
    | nil => simp at he2
    | cons b2 p2 =>
      simp only [Option.mem_def] at he1 he2
      split at he1
      · rename_i hc1
        split at he2
        · rename_i hc2
          obtain ⟨hb1, _⟩ := hc1
          obtain ⟨hb2, _⟩ := hc2
          subst hb1
          subst hb2
          simp only [rowOK, if_true, he1, he2, decide_eq_true_eq] at ok1 ok2
          rw [ok1, ok2]
          simpa [bytesLt] using hlt
        · cases he2
      · cases he1

/-- In a store that satisfies `StoreOK`, the entries of a range are the stored
entries whose path lies in the range. -/
theorem mem_entriesInRange (c : Codec) (db : Store) (hok : StoreOK c db)
    (from_ to_ : Bytes) (e : ns.Entry) :
    e ∈ entriesInRange c db from_ to_ ↔
      storedEntry c db e.Path = some e ∧ pathInRange from_ to_ e.Path = true := by
  unfold entriesInRange storedEntry
  rw [List.mem_filterMap]
  constructor
  · rintro ⟨⟨k, v⟩, hmem, hf⟩
    have ok := hok.2 _ hmem
    cases k with
    | nil => simp at hf
    | cons b p =>
      simp only at hf
      split at hf
      · rename_i hc
        obtain ⟨hb, hr⟩ := hc
        subst hb
        simp only [rowOK, if_true, hf, decide_eq_true_eq] at ok
        subst ok
        have hg : dbGet db (keyFor dbPrefix_Entry e.Path) = some v :=
          dbGet_of_mem hok.1 hmem
        rw [hg]
        exact ⟨hf, hr⟩
      · cases hf
  · rintro ⟨hst, hr⟩
    cases hg : dbGet db (keyFor dbPrefix_Entry e.Path) with
    | none => rw [hg] at hst; cases hst
    | some v =>
      rw [hg] at hst
      simp only at hst
      refine ⟨(keyFor dbPrefix_Entry e.Path, v), mem_of_dbGet hg, ?_⟩
      simp [keyFor, hr, hst]

/-- With a visitor that asks to continue in every state of an invariant it
keeps, the loop of `List` hands it the decoded Entry rows one after the other
and ends without an error. -/
theorem listLoop_continue {σ : Type} (c : Codec) (visitor : Visitor σ) (Inv : σ → Prop)
    (hcont : ∀ s e, Inv s →
      (visitor s (some e) none).2 = (true, none) ∧ Inv (visitor s (some e) none).1)
    (rows : List Row) (hrows : ∀ r ∈ rows, rowOK c r = true) (s : σ) (hs : Inv s) :
    listLoop c visitor rows s =
      ((decodeRows c rows).foldl (fun s e => (visitor s (some e) none).1) s, none) := by
  induction rows generalizing s with
  | nil => rfl
  | cons r rest ih =>
    obtain ⟨k, v⟩ := r
    have hr := hrows (k, v) (List.mem_cons_self _ _)
    have hrest : ∀ r ∈ rest, rowOK c r = true := fun r h => hrows r (List.mem_cons_of_mem _ h)
    cases k with
    | nil => simp [rowOK] at hr
    | cons b p =>
      by_cases hb : b = dbPrefix_Entry
      · subst hb
        simp only [rowOK, if_true] at hr
        cases hu : c.unmarshalEntry v with
        | none => rw [hu] at hr; simp at hr
        | some e =>
          have h2 := (hcont s e hs).1
          have h3 : visitor s (some e) none = ((visitor s (some e) none).1, true, none) := by
            rw [← h2]
          simp only [listLoop, ne_eq, not_true_eq_false, if_false, hu]
          rw [h3]
          simp only [Bool.not_true, Bool.false_eq_true, if_false]
          rw [ih hrest _ (hcont s e hs).2]
          simp [decodeRows, List.filterMap_cons, hu]
      · simp only [listLoop, ne_eq, hb, not_false_eq_true, if_true]
        rw [ih hrest s hs]
        simp [decodeRows, List.filterMap_cons, hb]

/-- The invariant is kept along the calls of a continuing visitor. -/
theorem foldl_visitor_inv {σ : Type} (visitor : Visitor σ) (Inv : σ → Prop)
    (hcont : ∀ s e, Inv s →
      (visitor s (some e) none).2 = (true, none) ∧ Inv (visitor s (some e) none).1)
    (es : List ns.Entry) (s : σ) (hs : Inv s) :
    Inv (es.foldl (fun s e => (visitor s (some e) none).1) s) := by
  induction es generalizing s with
  | nil => exact hs
  | cons e rest ih => exact ih _ (hcont s e hs).2

/-- On an open namespace whose store satisfies `StoreOK`, `List` with a
continuing visitor hands it the entries of the range in order, then the EOF
sentinel, and returns no error. -/
theorem list_continue {σ : Type} (c : Codec) (n : Namespace) (from_ to_ : Bytes)
    (visitor : Visitor σ) (Inv : σ → Prop)
    (hcont : ∀ s e, Inv s →
      (visitor s (some e) none).2 = (true, none) ∧ Inv (visitor s (some e) none).1)
    (s : σ) (hs : Inv s)
    (hopen : n.state = namespaceStatus_OPEN) (hok : StoreOK c n.db) :
    Namespace.List c n from_ to_ visitor s =
      ((visitor ((entriesInRange c n.db from_ to_).foldl
        (fun s e => (visitor s (some e) none).1) s) none (some Err.EOF)).1, none) := by
  simp only [Namespace.List, hopen, ne_eq, not_true_eq_false, if_false]
  rw [listLoop_continue c visitor Inv hcont _ _ s hs]
  · have h := decodeRows_dbIter c n.db from_ to_
    simp only [ne_eq] at h
    rw [h]
  · intro r hr
    exact hok.2 r (List.mem_of_mem_filter hr)

theorem foldl_recordVisitor (es : List ns.Entry) (calls : List (Option ns.Entry × Option Err)) :
    es.foldl (fun s e => (recordVisitor s (some e) none).1) calls =
      calls ++ es.map (fun e => (some e, none)) := by
  induction es generalizing calls with
  | nil => simp
  | cons e rest ih =>
    rw [List.foldl_cons, ih]
    simp [recordVisitor]

/-- C2, amended: on an open namespace whose store is an ordered map in which
every Entry row decodes to an entry with the path of its key, `List`
with a visitor that always asks to continue calls it on the stored entries
whose path `p` satisfies `from <= p < to` (an empty `from` bounds nothing, an
empty `to` is no upper bound), one call each in ascending path order, then once
with the EOF sentinel, and returns no error.  A recording visitor records
exactly these calls; every entry handed over is the entry stored under its own
path in the Entry table, so no row of another table is handed over. -/
theorem list_range_in_order {σ : Type} (c : Codec) (n : Namespace) (from_ to_ : Bytes)
    (visitor : Visitor σ) (s : σ)
    (hopen : n.state = namespaceStatus_OPEN) (hok : StoreOK c n.db)
    (hcont : ∀ s e, (visitor s (some e) none).2 = (true, none)) :
    Namespace.List c n from_ to_ visitor s =
      ((visitor ((entriesInRange c n.db from_ to_).foldl
        (fun s e => (visitor s (some e) none).1) s) none (some Err.EOF)).1, none) ∧
    Namespace.List c n from_ to_ recordVisitor [] =
      ((entriesInRange c n.db from_ to_).map (fun e => (some e, none)) ++
        [(none, some Err.EOF)], none) ∧
    (entriesInRange c n.db from_ to_).Pairwise
      (fun e1 e2 => bytesLt e1.Path e2.Path = true) ∧
    (∀ e, e ∈ entriesInRange c n.db from_ to_ ↔
      storedEntry c n.db e.Path = some e ∧ pathInRange from_ to_ e.Path = true) := by
  refine ⟨?_, ?_, entriesInRange_ascending c n.db hok from_ to_,
    mem_entriesInRange c n.db hok from_ to_⟩
  · exact list_continue c n from_ to_ visitor (fun _ => True)
      (fun s e _ => ⟨hcont s e, trivial⟩) s trivial hopen hok
  · rw [list_continue c n from_ to_ recordVisitor (fun _ => True)
      (fun s e _ => ⟨rfl, trivial⟩) [] trivial hopen hok, foldl_recordVisitor]
    simp [recordVisitor]

theorem list_range_in_order_witness :
    nsJ.state = namespaceStatus_OPEN ∧ StoreOK jsonCodec nsJ.db ∧
    Namespace.List jsonCodec nsJ [47, 100] [47, 122] recordVisitor [] =
      ([(some (entryAt pathD1), none), (some (entryAt pathD2), none),
        (some (entryAt pathE1), none), (none, some Err.EOF)], none) :=
  ⟨by decide, by decide,
    ((list_range_in_order jsonCodec nsJ [47, 100] [47, 122] recordVisitor []
      (by decide) (by decide) (fun _ _ => rfl)).2.1).trans (by decide)⟩

/-- C2 as stated fails on a namespace that `Open` and `Add` build when strings
are coerced as JSON does: after `Add` at the paths `\x80` and `\xc2\x80`,
`List("\x80", "\x81")` hands the visitor an entry whose path is U+FFFD, which
lies outside the range and is the path of no stored entry, and `List("", "")`
hands over the path U+FFFD and then `\xc2\x80`, in descending order. -/
theorem list_range_in_order_counterexample :
    freshOpen.state = namespaceStatus_OPEN ∧
    (Namespace.Add jsonCodec freshOpen (entryAt path80)).2 = none ∧
    (Namespace.Add jsonCodec (Namespace.Add jsonCodec freshOpen (entryAt path80)).1
      (entryAt pathC280)).2 = none ∧
    nsBad.state = namespaceStatus_OPEN ∧
    Namespace.List jsonCodec nsBad path80 [129] recordVisitor [] =
      ([(some (entryAt pathFFFD), none), (none, some Err.EOF)], none) ∧
    pathInRange path80 [129] pathFFFD = false ∧
    storedEntry jsonCodec nsBad.db pathFFFD = none ∧
    Namespace.List jsonCodec nsBad [] [] recordVisitor [] =
      ([(some (entryAt pathFFFD), none), (some (entryAt pathC280), none),
        (none, some Err.EOF)], none) ∧
    bytesLt pathFFFD pathC280 = false := by
  decide

/-! ## The batches of the name service -/

open nameservice

/-- One call of the visitor of `NameService.List` on an entry, on a stream whose
`Send` never fails. -/
theorem listVisitor_entry (pEntries : List nameservice.Entry) (sent : List ListResponse)
    (e : ns.Entry) :
    listVisitor (pEntries, ({ sent := sent, budget := none } : NameService_ListServer))
        (some e) none =
      if pEntries.length = DefaultListBatchSize then
        (([convertEntry e], { sent := sent ++ [{ Entries := pEntries }], budget := none }),
          true, none)
      else ((pEntries ++ [convertEntry e], { sent := sent, budget := none }), true, none) := by
  by_cases h : pEntries.length = DefaultListBatchSize
  · simp [listVisitor, h, NameService_ListServer.Send]
  · simp [listVisitor, h]

/-- The state of the visitor of `NameService.List` after the entries `es`, on a
stream whose `Send` never fails: the batches sent are full, the pending one is
not over-full and not empty once an entry has come, and nothing is lost or
reordered. -/
theorem foldl_listVisitor (es : List ns.Entry) (pEntries : List nameservice.Entry)
    (sent : List ListResponse) (hp : pEntries.length ≤ DefaultListBatchSize) :
    ∃ (pEntries1 : List nameservice.Entry) (batches : List ListResponse),
      es.foldl (fun s e => (listVisitor s (some e) none).1)
        (pEntries, ({ sent := sent, budget := none } : NameService_ListServer)) =
        (pEntries1, { sent := sent ++ batches, budget := none }) ∧
      pEntries1.length ≤ DefaultListBatchSize ∧
      (∀ b ∈ batches, b.Entries.length = DefaultListBatchSize) ∧
      (batches.map (fun b => b.Entries)).flatten ++ pEntries1 =
        pEntries ++ es.map convertEntry ∧
      (es ≠ [] ∨ pEntries ≠ [] → pEntries1 ≠ []) := by
  induction es generalizing pEntries sent with
  | nil => exact ⟨pEntries, [], by simp, hp, by simp, by simp, by simp⟩
  | cons e rest ih =>
    by_cases hfull : pEntries.length = DefaultListBatchSize
    · obtain ⟨p1, bs, h1, h2, h3, h4, h5⟩ :=
        ih [convertEntry e] (sent ++ [{ Entries := pEntries }]) (by simp [DefaultListBatchSize])
      refine ⟨p1, { Entries := pEntries } :: bs, ?_, h2, ?_, ?_, fun _ => h5 (Or.inr (by simp))⟩
      · rw [List.foldl_cons, listVisitor_entry, if_pos hfull, h1]
        simp
      · intro b hb
        rcases List.mem_cons.1 hb with h | h
        · subst h; exact hfull
        · exact h3 b h
      · simp only [List.map_cons, List.flatten_cons, List.append_assoc]
        rw [h4]
        simp
    · have hlt : (pEntries ++ [convertEntry e]).length ≤ DefaultListBatchSize := by
        simp only [List.length_append, List.length_singleton]
        omega
      obtain ⟨p1, bs, h1, h2, h3, h4, h5⟩ := ih (pEntries ++ [convertEntry e]) sent hlt
      refine ⟨p1, bs, ?_, h2, h3, ?_, fun _ => h5 (Or.inr (by simp))⟩
      · rw [List.foldl_cons, listVisitor_entry, if_neg hfull]
        exact h1
      · rw [h4]
        simp

theorem convertBlocks_eq_map (bs : List ns.BlockMetadata) :
    convertBlocks bs =
      bs.map (fun b => ({ BlockId := b.Block, PvId := b.PVID } : nameservice.BlockMetadata)) := by
  induction bs with
  | nil => rfl
  | cons b rest ih => simp [convertBlocks, ih]

theorem length_flatten_full (bs : List ListResponse)
    (h : ∀ b ∈ bs, b.Entries.length = 512) :
    ((bs.map (fun b => b.Entries)).flatten).length = 512 * bs.length := by
  induction bs with
  | nil => rfl
  | cons b rest ih =>
    simp only [List.map_cons, List.flatten_cons, List.length_append, List.length_cons]
    rw [ih (fun x hx => h x (List.mem_cons_of_mem _ hx)), h b (List.mem_cons_self _ _)]
    omega

/-- C10, amended: on an open namespace whose store is an ordered map in which
every Entry row decodes to an entry with the path of its key, with a stream
whose `Send` never fails, `NameService.List` sends batches whose concatenation,
in order, is the list of the stored entries of the range, each as the message
with its path, volume, blocks (id and physical volume), permissions, block size,
replication level and size, in ascending path order; every batch holds at most
512 entries, every batch but the last exactly 512, the batches are
`(n - 1) / 512 + 1` for `n` entries, and the call returns no error. -/
theorem nameservice_list_batches (c : Codec) (this : NameService) (request : ListRequest)
    (stream : NameService_ListServer)
    (hopen : this.Namespace.state = namespaceStatus_OPEN)
    (hok : StoreOK c this.Namespace.db) (hsend : stream.budget = none) :
    ∃ batches : List ListResponse,
      NameService.List c this request stream =
        ({ sent := stream.sent ++ batches, budget := none }, none) ∧
      (batches.map (fun b => b.Entries)).flatten =
        (entriesInRange c this.Namespace.db request.StartKey request.EndKey).map
          (fun e =>
            ({ Path := e.Path,
               LvId := e.VolumeName,
               Blocks := e.Blocks.map (fun b =>
                 ({ BlockId := b.Block, PvId := b.PVID } : nameservice.BlockMetadata)),
               Permissions := e.Permissions,
               BlockSize := e.BlockSize,
               ReplicationLevel := e.ReplicationLevel,
               Size := e.Size } : nameservice.Entry)) ∧
      ((batches.map (fun b => b.Entries)).flatten).Pairwise
        (fun a b => bytesLt a.Path b.Path = true) ∧
      (∀ b ∈ batches, b.Entries.length ≤ 512) ∧
      (∀ b ∈ batches.dropLast, b.Entries.length = 512) ∧
      batches.length =
        ((entriesInRange c this.Namespace.db request.StartKey request.EndKey).length - 1) / 512
          + 1 ∧
      DefaultListBatchSize = 512 ∧
      (∀ e, e ∈ entriesInRange c this.Namespace.db request.StartKey request.EndKey ↔
        storedEntry c this.Namespace.db e.Path = some e ∧
          pathInRange request.StartKey request.EndKey e.Path = true) ∧
      (entriesInRange c this.Namespace.db request.StartKey request.EndKey).Pairwise
        (fun e1 e2 => bytesLt e1.Path e2.Path = true) := by
  obtain ⟨sent, budget⟩ := stream
  simp only at hsend
  subst hsend
  have hcont : ∀ (s : List nameservice.Entry × NameService_ListServer) (e : ns.Entry),
      s.2.budget = none →
      (listVisitor s (some e) none).2 = (true, none) ∧
        (listVisitor s (some e) none).1.2.budget = none := by
    rintro ⟨pE, ⟨st, bd⟩⟩ e hb
    simp only at hb
    subst hb
    rw [listVisitor_entry]
    split <;> exact ⟨rfl, rfl⟩
  obtain ⟨p1, bs, h1, h2, h3, h4, h5⟩ :=
    foldl_listVisitor (entriesInRange c this.Namespace.db request.StartKey request.EndKey)
      [] sent (Nat.zero_le _)
  have hasc := entriesInRange_ascending c _ hok request.StartKey request.EndKey
  have hconv : (fun e : ns.Entry =>
      ({ Path := e.Path,
         LvId := e.VolumeName,
         Blocks := e.Blocks.map (fun b =>
           ({ BlockId := b.Block, PvId := b.PVID } : nameservice.BlockMetadata)),
         Permissions := e.Permissions,
         BlockSize := e.BlockSize,
         ReplicationLevel := e.ReplicationLevel,
         Size := e.Size } : nameservice.Entry)) = convertEntry := by
    funext e
    simp [convertEntry, convertBlocks_eq_map]
  have hflat : ((bs ++ [({ Entries := p1 } : ListResponse)]).map
      (fun b => b.Entries)).flatten =
      (entriesInRange c this.Namespace.db request.StartKey request.EndKey).map convertEntry := by
    simpa using h4
  have h3' : ∀ b ∈ bs, b.Entries.length = 512 := h3
  have h2' : p1.length ≤ 512 := h2
  refine ⟨bs ++ [{ Entries := p1 }], ?_, ?_, ?_, ?_, ?_, ?_, rfl,
    mem_entriesInRange c _ hok _ _, hasc⟩
  · unfold NameService.List
    simp only
    rw [list_continue c this.Namespace request.StartKey request.EndKey listVisitor
      (fun s => s.2.budget = none) hcont ([], { sent := sent, budget := none }) rfl hopen hok,
      h1]
    simp [listVisitor, NameService_ListServer.Send]
  · rw [hconv]; exact hflat
  · rw [hflat, List.pairwise_map]
    exact hasc
  · intro b hb
    rcases List.mem_append.1 hb with h | h
    · exact le_of_eq (h3' b h)
    · simp only [List.mem_singleton] at h
      subst h
      exact h2'
  · intro b hb
    rw [List.dropLast_concat] at hb
    exact h3' b hb
  · have hlen := congrArg List.length hflat
    simp only [List.map_append, List.flatten_append, List.length_append, List.map_cons,
      List.map_nil, List.flatten_cons, List.flatten_nil, List.append_nil, List.length_map] at hlen
    rw [length_flatten_full bs h3'] at hlen
    have hne : (entriesInRange c this.Namespace.db request.StartKey request.EndKey) ≠ [] →
        0 < p1.length := by
      intro hn
      exact List.length_pos.2 (h5 (Or.inl hn))
    simp only [List.length_append, List.length_singleton]
    rcases Nat.eq_zero_or_pos
      (entriesInRange c this.Namespace.db request.StartKey request.EndKey).length with hz | hpos
    · rw [hz] at hlen ⊢
      omega
    · have := hne (List.length_pos.1 hpos)
      omega

/-! ## The scan of Delete -/

/-- One call of the visitor of `Delete` on an entry. -/
theorem deleteVisitor_entry (path : Bytes) (recursive : Bool) (batch : Batch) (k : Nat)
    (e : ns.Entry) :
    deleteVisitor path recursive (batch, k) (some e) none =
      if deleteMatches path recursive e.Path then
        ((batch ++ [BatchOp.delete (keyFor dbPrefix_Entry e.Path)], (k + 1) % 2 ^ 32), true, none)
      else ((batch, k), false, none) := by
  cases recursive
  · by_cases h1 : e.Path = path
    · simp [deleteVisitor, deleteMatches, h1]
    · simp [deleteVisitor, deleteMatches, h1]
  · cases h : hasPrefix e.Path path
    · simp [deleteVisitor, deleteMatches, h]
    · simp [deleteVisitor, deleteMatches, h]

/-- The loop of `List` with the visitor of `Delete`: the staged batch and the
counter. -/
theorem listLoop_deleteVisitor (c : Codec) (path : Bytes) (recursive : Bool)
    (rows : List Row) (hrows : ∀ r ∈ rows, rowOK c r = true) (batch : Batch) (k : Nat)
    (hk : k < 2 ^ 32) :
    listLoop c (deleteVisitor path recursive) rows (batch, k) =
      ((batch ++ (deleteScan path recursive rows).map
          (fun p => BatchOp.delete (keyFor dbPrefix_Entry p)),
        (k + (deleteScan path recursive rows).length) % 2 ^ 32), none) := by
  induction rows generalizing batch k with
  | nil =>
    have hk1 : k % 2 ^ 32 = k := Nat.mod_eq_of_lt hk
    simp only [listLoop, deleteScan, List.map_nil, List.append_nil, List.length_nil,
      Nat.add_zero, hk1]
  | cons r rest ih =>
    obtain ⟨key, v⟩ := r
    have hr := hrows (key, v) (List.mem_cons_self _ _)
    have hrest : ∀ r ∈ rest, rowOK c r = true := fun r h => hrows r (List.mem_cons_of_mem _ h)
    cases key with
    | nil => simp [rowOK] at hr
    | cons b p =>
      by_cases hb : b = dbPrefix_Entry
      · subst hb
        simp only [rowOK, if_true] at hr
        cases hu : c.unmarshalEntry v with
        | none => rw [hu] at hr; simp at hr
        | some e =>
          rw [hu] at hr
          simp only [decide_eq_true_eq] at hr
          subst hr
          simp only [listLoop, ne_eq, not_true_eq_false, if_false, hu, deleteScan]
          rw [deleteVisitor_entry]
          by_cases hm : deleteMatches path recursive e.Path = true
          · simp only [hm, if_true, Bool.not_true, Bool.false_eq_true, if_false]
            rw [ih hrest _ _ (Nat.mod_lt _ (by norm_num))]
            simp only [List.map_cons, List.length_cons, List.append_assoc, List.singleton_append,
              Prod.mk.injEq, and_true, true_and]
            omega
          · simp only [hm, if_false, Bool.false_eq_true, Bool.not_false, if_true,
              List.map_nil, List.append_nil, List.length_nil, Nat.add_zero,
              Nat.mod_eq_of_lt hk]
      · simp only [listLoop, ne_eq, hb, not_false_eq_true, if_true, deleteScan]
        exact ih hrest batch k hk

/-- In ascending order no path that passes the test of `Delete` comes after a
path that is not below `path` and fails the test. -/
theorem deleteMatches_block {path : Bytes} {recursive : Bool} {q1 q2 : Bytes}
    (h1 : bytesLt q1 path = false) (h2 : deleteMatches path recursive q1 = false)
    (h3 : deleteMatches path recursive q2 = true) : bytesLt q1 q2 = false := by
  cases recursive
  · simp only [deleteMatches, Bool.false_eq_true, if_false, decide_eq_true_eq] at h3
    subst h3
    exact h1
  · simp only [deleteMatches, if_true] at h2 h3
    exact underPath_block h1 h2 h3

/-- On ascending rows that are not below `path`, the scan of `Delete` stages
every Entry row that passes the test. -/
theorem deleteScan_eq_filter (path : Bytes) (recursive : Bool) (rows : List Row)
    (hs : Sorted rows) (hne : ∀ r ∈ rows, r.1 ≠ [])
    (hge : ∀ r ∈ rows, ∀ q, r.1 = dbPrefix_Entry :: q → bytesLt q path = false) :
    deleteScan path recursive rows =
      (rows.filter (rowMatches path recursive)).map (fun r => r.1.tail) := by
  induction rows with
  | nil => rfl
  | cons r rest ih =>
    obtain ⟨key, v⟩ := r
    unfold Sorted at hs
    rw [List.pairwise_cons] at hs
    have ih1 := ih hs.2 (fun r h => hne r (List.mem_cons_of_mem _ h))
      (fun r h => hge r (List.mem_cons_of_mem _ h))
    cases key with
    | nil => exact absurd rfl (hne ([], v) (List.mem_cons_self _ _))
    | cons b p =>
      by_cases hb : b = dbPrefix_Entry
      · subst hb
        cases hm : deleteMatches path recursive p with
        | true =>
          simp [deleteScan, List.filter_cons, rowMatches, hm, ih1]
        | false =>
          have hnil : rest.filter (rowMatches path recursive) = [] := by
            rw [List.filter_eq_nil_iff]
            intro r1 hr1 hmatch
            obtain ⟨k1, v1⟩ := r1
            have hlt := hs.1 _ hr1
            cases k1 with
            | nil => simp [rowMatches] at hmatch
            | cons b1 p1 =>
              simp only [rowMatches, Bool.and_eq_true, decide_eq_true_eq] at hmatch
              obtain ⟨hb1, hm1⟩ := hmatch
              subst hb1
              have hp := hge (dbPrefix_Entry :: p, v) (List.mem_cons_self _ _) p rfl
              have := deleteMatches_block hp hm hm1
              simp [bytesLt, this] at hlt
          simp [deleteScan, List.filter_cons, rowMatches, hm, hnil]
      · simp [deleteScan, List.filter_cons, rowMatches, hb, ih1]

theorem rowOK_key_ne_nil {c : Codec} {r : Row} (h : rowOK c r = true) : r.1 ≠ [] := by
  intro h1
  simp [rowOK, h1] at h

/-- A batch of deletions removes the rows with the staged keys. -/
theorem dbWrite_deletes (ks : List Bytes) (db : Store) :
    dbWrite db (ks.map BatchOp.delete) = db.filter (fun r => decide (r.1 ∉ ks)) := by
  induction ks generalizing db with
  | nil => simp [dbWrite]
  | cons k rest ih =>
    simp only [List.map_cons, dbWrite, ih, dbDelete, List.filter_filter]
    apply List.filter_congr
    intro r _
    by_cases h1 : r.1 = k <;> by_cases h2 : r.1 ∈ rest <;> simp [h1, h2]

/-- A row that passes the test of `Delete` lies in the range of its scan. -/
theorem inRange_of_rowMatches {path : Bytes} {recursive : Bool} {r : Row}
    (h : rowMatches path recursive r = true) :
    inRange (if path ≠ [] then some (keyFor dbPrefix_Entry path) else none) none r.1 = true := by
  obtain ⟨key, v⟩ := r
  cases key with
  | nil => simp [rowMatches] at h
  | cons b p =>
    simp only [rowMatches, Bool.and_eq_true, decide_eq_true_eq] at h
    obtain ⟨hb, hm⟩ := h
    subst hb
    by_cases hp : path = []
    · simp [inRange, hp]
    · have hge : bytesLt p path = false := by
        cases recursive
        · simp only [deleteMatches, Bool.false_eq_true, if_false, decide_eq_true_eq] at hm
          subst hm
          exact bytesLt_irrefl p
        · simp only [deleteMatches, if_true] at hm
          exact not_bytesLt_of_hasPrefix hm
      simp [inRange, hp, keyFor, bytesLt, hge]

/-- The rows of the scan of `Delete` are not below `path`. -/
theorem scan_rows_ge {path : Bytes} {db : Store} {r : Row}
    (h : r ∈ dbIter db (if path ≠ [] then some (keyFor dbPrefix_Entry path) else none) none)
    (q : Bytes) (hq : r.1 = dbPrefix_Entry :: q) : bytesLt q path = false := by
  by_cases hp : path = []
  · subst hp
    exact bytesLt_nil_right q
  · have h1 := (List.mem_filter.1 h).2
    simp only [ne_eq, hp, not_false_eq_true, if_true, inRange, hq, keyFor,
      List.singleton_append, Bool.and_true] at h1
    simpa [bytesLt] using h1

/-- Method `Delete` on an open namespace whose store satisfies `StoreOK`:
it removes the Entry rows that pass its test, leaves every other row, and
returns their number in the `uint32` counter. -/
theorem delete_spec (c : Codec) (n : Namespace) (path : Bytes) (recursive : Bool)
    (hopen : n.state = namespaceStatus_OPEN) (hok : StoreOK c n.db) :
    Namespace.Delete c n path recursive =
      ({ n with db := n.db.filter (fun r => !rowMatches path recursive r) },
        (n.db.filter (rowMatches path recursive)).length % 2 ^ 32, none) := by
  have hrows : ∀ r ∈ dbIter n.db
      (if path ≠ [] then some (keyFor dbPrefix_Entry path) else none) none,
      rowOK c r = true := fun r hr => hok.2 r (List.mem_of_mem_filter hr)
  have hscan := deleteScan_eq_filter path recursive
    (dbIter n.db (if path ≠ [] then some (keyFor dbPrefix_Entry path) else none) none)
    (List.Pairwise.filter _ hok.1) (fun r hr => rowOK_key_ne_nil (hrows r hr))
    (fun r hr q hq => scan_rows_ge hr q hq)
  have hfilter : (dbIter n.db
      (if path ≠ [] then some (keyFor dbPrefix_Entry path) else none) none).filter
      (rowMatches path recursive) = n.db.filter (rowMatches path recursive) := by
    unfold dbIter
    rw [List.filter_filter]
    apply List.filter_congr
    intro r _
    cases hm : rowMatches path recursive r
    · simp
    · have h1 := inRange_of_rowMatches hm
      simp only [ne_eq] at h1
      simp only [ne_eq, h1, Bool.and_self]
  rw [hfilter] at hscan
  simp only [Namespace.Delete, Namespace.List, hopen, ne_eq, not_true_eq_false, if_false]
  have hloop := listLoop_deleteVisitor c path recursive _ hrows [] 0 (by norm_num)
  simp only [ne_eq] at hloop
  rw [hloop]
  simp only [deleteVisitor, List.nil_append, Nat.zero_add, hscan, List.length_map]
  congr 1
  congr 1
  rw [show (List.map (fun p => BatchOp.delete (keyFor dbPrefix_Entry p))
      (List.map (fun r => r.1.tail) (List.filter (rowMatches path recursive) n.db))) =
      List.map BatchOp.delete (List.map (fun r => keyFor dbPrefix_Entry r.1.tail)
        (List.filter (rowMatches path recursive) n.db)) by simp [List.map_map]]
  rw [dbWrite_deletes]
  apply List.filter_congr
  intro r hr
  obtain ⟨key, v⟩ := r
  cases hm : rowMatches path recursive (key, v) with
  | true =>
    simp only [Bool.not_true, decide_eq_false_iff_not, not_not, List.mem_map, List.mem_filter]
    refine ⟨(key, v), ⟨hr, hm⟩, ?_⟩
    cases key with
    | nil => simp [rowMatches] at hm
    | cons b p =>
      simp only [rowMatches, Bool.and_eq_true, decide_eq_true_eq] at hm
      simp [keyFor, hm.1]
  | false =>
    simp only [Bool.not_false, decide_eq_true_eq, List.mem_map, List.mem_filter, not_exists,
      not_and, and_imp]
    intro r1 _ hm1 hkey
    obtain ⟨k1, v1⟩ := r1
    cases k1 with
    | nil => simp [rowMatches] at hm1
    | cons b1 p1 =>
      have hb1 : b1 = dbPrefix_Entry := by
        simp only [rowMatches, Bool.and_eq_true, decide_eq_true_eq] at hm1
        exact hm1.1
      subst hb1
      simp only [keyFor, List.tail_cons, List.singleton_append] at hkey
      subst hkey
      simp only [rowMatches] at hm hm1
      rw [hm1] at hm
      cases hm

/-! ## Claims on Delete -/

theorem rowMatches_recursive (path : Bytes) :
    rowMatches path true = entryRowUnder path := by
  funext r
  obtain ⟨key, v⟩ := r
  cases key <;> simp [rowMatches, entryRowUnder, deleteMatches]

theorem rowMatches_exact (path : Bytes) (r : Row) :
    rowMatches path false r = decide (r.1 = keyFor dbPrefix_Entry path) := by
  obtain ⟨key, v⟩ := r
  cases key with
  | nil => simp [rowMatches, keyFor]
  | cons b p =>
    by_cases hb : b = dbPrefix_Entry <;> by_cases hp : p = path <;>
      simp [rowMatches, deleteMatches, keyFor, hb, hp]

/-- Reading a store from which the rows with certain keys were filtered out. -/
theorem dbGet_filter_key (f : Bytes → Bool) (db : Store) (k : Bytes) :
    dbGet (db.filter (fun r => f r.1)) k = if f k then dbGet db k else none := by
  induction db with
  | nil => simp [dbGet]
  | cons r rest ih =>
    obtain ⟨k0, v0⟩ := r
    by_cases hk : k0 = k
    · subst hk
      cases hf : f k0
      · simp [List.filter_cons, hf, ih]
      · simp [List.filter_cons, hf, dbGet]
    · cases hf : f k0
      · simp [List.filter_cons, hf, ih, dbGet, hk]
      · simp [List.filter_cons, hf, ih, dbGet, hk]

/-- In an ordered store a key has one row when it is present and none otherwise. -/
theorem count_key (db : Store) (hs : Sorted db) (k : Bytes) :
    (db.filter (fun r => decide (r.1 = k))).length = if dbHas db k then 1 else 0 := by
  induction db with
  | nil => simp [dbHas, dbGet]
  | cons r rest ih =>
    obtain ⟨k0, v0⟩ := r
    unfold Sorted at hs
    rw [List.pairwise_cons] at hs
    by_cases hk : k0 = k
    · subst hk
      have hnil : rest.filter (fun r => decide (r.1 = k0)) = [] := by
        rw [List.filter_eq_nil_iff]
        intro r1 hr1 heq
        simp only [decide_eq_true_eq] at heq
        exact bytesLt_ne (hs.1 r1 hr1) heq.symm
      simp [List.filter_cons, hnil, dbHas, dbGet]
    · have := ih hs.2
      simp only [dbHas] at this
      simp [List.filter_cons, hk, dbHas, dbGet, this]

/-- The Entry rows under a path are as many as the stored entries under it. -/
theorem length_entriesUnder (c : Codec) (db : Store) (hrows : ∀ r ∈ db, rowOK c r = true)
    (path : Bytes) :
    (entriesUnder c db path).length = (db.filter (entryRowUnder path)).length := by
  unfold entriesUnder entriesInRange
  induction db with
  | nil => rfl
  | cons r rest ih =>
    obtain ⟨key, v⟩ := r
    have hr := hrows (key, v) (List.mem_cons_self _ _)
    have ih1 := ih (fun r h => hrows r (List.mem_cons_of_mem _ h))
    cases key with
    | nil => simp [rowOK] at hr
    | cons b p =>
      by_cases hb : b = dbPrefix_Entry
      · subst hb
        simp only [rowOK, if_true] at hr
        cases hu : c.unmarshalEntry v with
        | none => rw [hu] at hr; simp at hr
        | some e =>
          rw [hu] at hr
          simp only [decide_eq_true_eq] at hr
          subst hr
          have hin : pathInRange [] [] e.Path = true := by
            simp [pathInRange, bytesLt_nil_right]
          simp only [List.filterMap_cons, hin, and_self, if_true, hu, List.filter_cons,
            entryRowUnder, decide_True, Bool.true_and]
          cases hp : hasPrefix e.Path path
          · simpa using ih1
          · simpa using ih1
      · simp only [List.filterMap_cons, hb, false_and, if_false, List.filter_cons,
          entryRowUnder, decide_False, Bool.false_and, Bool.false_eq_true]
        exact ih1

/-- Method `Delete` with `recursive = true` on an open namespace whose store
satisfies `StoreOK`. -/
theorem recursive_delete_spec (c : Codec) (n : Namespace) (p : Bytes)
    (hopen : n.state = namespaceStatus_OPEN) (hok : StoreOK c n.db) :
    Namespace.Delete c n p true =
      ({ n with db := n.db.filter (fun r => !entryRowUnder p r) },
        (entriesUnder c n.db p).length % 2 ^ 32, none) := by
  rw [delete_spec c n p true hopen hok, rowMatches_recursive, length_entriesUnder c n.db hok.2]

/-- C4, amended: on an open namespace whose store is an ordered map in which
every Entry row decodes to an entry with the path of its key,
`Delete(p, recursive=true)` returns the number of stored entries whose path
starts with `p` reduced modulo `2 ^ 32` (the counter is a `uint32`), hence that
number itself when it is below `2 ^ 32` (the entries under `p` are listed
without repetition); the store afterwards is the store
before without the Entry rows whose path starts with `p`: a key reads as absent
when it is such a row and as before otherwise, so every entry not under `p`
and every GlobalMetadata and BlockAssignment row is unchanged. -/
theorem delete_recursive (c : Codec) (n : Namespace) (p : Bytes)
    (hopen : n.state = namespaceStatus_OPEN) (hok : StoreOK c n.db) :
    Namespace.Delete c n p true =
      ({ n with db := n.db.filter (fun r => !entryRowUnder p r) },
        (entriesUnder c n.db p).length % 2 ^ 32, none) ∧
    ((entriesUnder c n.db p).length < 2 ^ 32 →
      (Namespace.Delete c n p true).2.1 = (entriesUnder c n.db p).length) ∧
    (∀ e, e ∈ entriesUnder c n.db p ↔
      storedEntry c n.db e.Path = some e ∧ hasPrefix e.Path p = true) ∧
    (entriesUnder c n.db p).Pairwise (fun e1 e2 => bytesLt e1.Path e2.Path = true) ∧
    (∀ k, dbGet (Namespace.Delete c n p true).1.db k =
      if entryRowUnder p (k, []) then none else dbGet n.db k) ∧
    (∀ table q, table ≠ dbPrefix_Entry ∨ hasPrefix q p = false →
      dbGet (Namespace.Delete c n p true).1.db (keyFor table q) =
        dbGet n.db (keyFor table q)) := by
  have hspec := recursive_delete_spec c n p hopen hok
  have hget : ∀ k, dbGet (Namespace.Delete c n p true).1.db k =
      if entryRowUnder p (k, []) then none else dbGet n.db k := by
    intro k
    rw [hspec]
    have h := dbGet_filter_key (fun key => !entryRowUnder p (key, [])) n.db k
    have hfun : (fun r : Row => !entryRowUnder p (r.1, [])) = fun r => !entryRowUnder p r := by
      funext r
      simp [entryRowUnder]
    rw [hfun] at h
    simp only [h]
    cases entryRowUnder p (k, []) <;> simp
  refine ⟨hspec, ?_, ?_, ?_, hget, ?_⟩
  · intro hlt
    rw [hspec]
    exact Nat.mod_eq_of_lt hlt
  · intro e
    unfold entriesUnder
    rw [List.mem_filter, mem_entriesInRange c n.db hok]
    simp [pathInRange, bytesLt_nil_right]
  · exact List.Pairwise.filter _ (entriesInRange_ascending c n.db hok [] [])
  · intro table q h
    rw [hget]
    rcases h with h | h
    · simp [entryRowUnder, keyFor, h]
    · simp [entryRowUnder, keyFor, h]

theorem delete_recursive_witness :
    nsJ.state = namespaceStatus_OPEN ∧ StoreOK jsonCodec nsJ.db ∧
    (Namespace.Delete jsonCodec nsJ pathD true).2.1 = 2 ∧
    Namespace.List jsonCodec (Namespace.Delete jsonCodec nsJ pathD true).1 [47] [47, 122]
        recordVisitor [] =
      ([(some entryA, none), (some (entryAt pathE1), none), (none, some Err.EOF)], none) ∧
    Namespace.Delete jsonCodec nsJ pathD true =
      ({ nsJ with db := nsJ.db.filter (fun r => !entryRowUnder pathD r) },
        (entriesUnder jsonCodec nsJ.db pathD).length % 2 ^ 32, none) :=
  ⟨by decide, by decide, by decide, by decide,
    (delete_recursive jsonCodec nsJ pathD (by decide) (by decide)).1⟩

/-- C7, amended: on an open namespace whose store is an ordered map in which
every Entry row decodes to an entry with the path of its key,
`Delete(p, recursive=false)` removes the Entry row stored under `p` and returns
1 when there is one, removes nothing and returns 0 when there is none; every
other key, the paths that merely start with `p` included, reads as before. -/
theorem delete_exact (c : Codec) (n : Namespace) (p : Bytes)
    (hopen : n.state = namespaceStatus_OPEN) (hok : StoreOK c n.db) :
    Namespace.Delete c n p false =
      ({ n with db := dbDelete n.db (keyFor dbPrefix_Entry p) },
        if dbHas n.db (keyFor dbPrefix_Entry p) then 1 else 0, none) ∧
    (dbHas n.db (keyFor dbPrefix_Entry p) = false →
      (Namespace.Delete c n p false).1 = n) ∧
    (∀ k, dbGet (Namespace.Delete c n p false).1.db k =
      if k = keyFor dbPrefix_Entry p then none else dbGet n.db k) := by
  have hspec : Namespace.Delete c n p false =
      ({ n with db := dbDelete n.db (keyFor dbPrefix_Entry p) },
        if dbHas n.db (keyFor dbPrefix_Entry p) then 1 else 0, none) := by
    rw [delete_spec c n p false hopen hok]
    have h1 : n.db.filter (fun r => !rowMatches p false r) =
        dbDelete n.db (keyFor dbPrefix_Entry p) := by
      unfold dbDelete
      apply List.filter_congr
      intro r _
      rw [rowMatches_exact]
      by_cases h : r.1 = keyFor dbPrefix_Entry p <;> simp [h]
    have h2 : n.db.filter (rowMatches p false) =
        n.db.filter (fun r => decide (r.1 = keyFor dbPrefix_Entry p)) := by
      apply List.filter_congr
      intro r _
      exact rowMatches_exact p r
    rw [h1, h2, count_key n.db hok.1]
    split <;> rfl
  refine ⟨hspec, ?_, ?_⟩
  · intro hno
    rw [hspec]
    have hid : dbDelete n.db (keyFor dbPrefix_Entry p) = n.db := by
      unfold dbDelete
      rw [List.filter_eq_self]
      intro r hr
      simp only [ne_eq, decide_eq_true_eq]
      intro hkey
      have hg := dbGet_of_mem hok.1 (show (r.1, r.2) ∈ n.db from hr)
      rw [hkey] at hg
      simp [dbHas, hg] at hno
    simp only [hid]
  · intro k
    rw [hspec]
    exact dbGet_dbDelete n.db _ k

theorem delete_exact_witness :
    nsJ.state = namespaceStatus_OPEN ∧ StoreOK jsonCodec nsJ.db ∧
    (Namespace.Delete jsonCodec nsJ pathD1 false).2.1 = 1 ∧
    (Namespace.Delete jsonCodec nsJ pathD false).2.1 = 0 ∧
    (Namespace.Delete jsonCodec nsJ pathD false).1 = nsJ ∧
    Namespace.Delete jsonCodec nsJ pathD1 false =
      ({ nsJ with db := dbDelete nsJ.db (keyFor dbPrefix_Entry pathD1) },
        if dbHas nsJ.db (keyFor dbPrefix_Entry pathD1) then 1 else 0, none) :=
  ⟨by decide, by decide, by decide, by decide, by decide,
    (delete_exact jsonCodec nsJ pathD1 (by decide) (by decide)).1⟩

/-- C7 as stated fails on the namespace that `Open` and `Add` at the path `\xff`
build when strings are coerced as JSON does: an Entry row is stored under
`\xff`, yet `Delete("\xff", recursive=false)` returns 0 and leaves the store as
it was. -/
theorem delete_exact_counterexample :
    freshOpen.state = namespaceStatus_OPEN ∧
    (Namespace.Add jsonCodec freshOpen (entryAt pathFF)).2 = none ∧
    nsFF.state = namespaceStatus_OPEN ∧
    dbHas nsFF.db (keyFor dbPrefix_Entry pathFF) = true ∧
    Namespace.Delete jsonCodec nsFF pathFF false = (nsFF, 0, none) := by
  decide

/-! ## A namespace with `2 ^ 32` entries -/

theorem path4_lt {i j : Nat} (hij : i < j) (hj : j < 4294967296) :
    bytesLt (path4 i) (path4 j) = true := by
  simp only [path4, bytesLt]
  split_ifs <;> first | rfl | omega

theorem bigDisk_sorted (N : Nat) (hN : N ≤ 4294967296) : Sorted (bigDisk N) := by
  unfold Sorted bigDisk
  rw [List.pairwise_append]
  refine ⟨?_, List.pairwise_singleton _ _, ?_⟩
  · rw [List.pairwise_map]
    refine List.Pairwise.imp_of_mem ?_ (List.pairwise_lt_range N)
    intro i j _ hj hij
    have hj1 : j < 4294967296 := lt_of_lt_of_le (List.mem_range.1 hj) hN
    have := path4_lt hij hj1
    simpa [keyFor, bytesLt] using this
  · intro r hr r1 hr1
    obtain ⟨i, _, hi⟩ := List.mem_map.1 hr
    rw [List.mem_singleton] at hr1
    subst hr1
    subst hi
    simp [keyFor, bytesLt, dbPrefix_Entry, dbPrefix_GlobalMetadata]

theorem bigDisk_rows (N : Nat) : ∀ r ∈ bigDisk N, rowOK plainCodec r = true := by
  intro r hr
  unfold bigDisk at hr
  rcases List.mem_append.1 hr with h | h
  · obtain ⟨i, _, hi⟩ := List.mem_map.1 h
    subst hi
    simp [rowOK, keyFor, plainCodec, getEntry_putEntry, entryAt]
  · rw [List.mem_singleton] at h
    subst h
    simp [rowOK, keyFor, dbPrefix_Entry, dbPrefix_GlobalMetadata]

theorem bigDisk_ok (N : Nat) (hN : N ≤ 4294967296) : StoreOK plainCodec (bigDisk N) :=
  ⟨bigDisk_sorted N hN, bigDisk_rows N⟩

theorem open_bigDisk (N : Nat) (hN : N ≤ 4294967296) :
    (Namespace.Open (New [100, 98] (bigDisk N))).1 =
      { path := [100, 98], db := bigDisk N, state := namespaceStatus_OPEN } := by
  have hmem : (keyFor dbPrefix_GlobalMetadata blockIdKey, [0]) ∈ bigDisk N := by
    unfold bigDisk
    exact List.mem_append_right _ (List.mem_singleton_self _)
  have hget := dbGet_of_mem (bigDisk_sorted N hN) hmem
  simp [Namespace.Open, New, dbHas, hget]

theorem bigDisk_count (N : Nat) :
    (entriesUnder plainCodec (bigDisk N) []).length = N := by
  rw [length_entriesUnder plainCodec (bigDisk N) (bigDisk_rows N)]
  unfold bigDisk
  rw [List.filter_append, List.length_append]
  have h1 : List.filter (entryRowUnder [])
      (List.map (fun i => (keyFor dbPrefix_Entry (path4 i), putEntry (entryAt (path4 i))))
        (List.range N)) =
      List.map (fun i => (keyFor dbPrefix_Entry (path4 i), putEntry (entryAt (path4 i))))
        (List.range N) := by
    rw [List.filter_eq_self]
    intro r hr
    obtain ⟨i, _, hi⟩ := List.mem_map.1 hr
    subst hi
    simp [entryRowUnder, keyFor, hasPrefix]
  rw [h1, List.length_map, List.length_range]
  simp [entryRowUnder, keyFor, dbPrefix_Entry, dbPrefix_GlobalMetadata]

/-- C4 as stated fails in two ways.  On the namespace that `Open` and `Add` at
the path `\xff` build when strings are coerced as JSON does, an Entry row is
stored under `\xff`, yet `Delete("\xff", recursive=true)` returns 0 and leaves
the store as it was, and `Delete` of the path U+FFFD returns 1 and leaves the
store as it was.  On a namespace that holds `2 ^ 32` entries, all of them start
with the empty path, and `Delete("", recursive=true)` returns 0. -/
theorem delete_recursive_counterexample :
    nsFF.state = namespaceStatus_OPEN ∧
    (Namespace.Add jsonCodec freshOpen (entryAt pathFF)).2 = none ∧
    dbHas nsFF.db (keyFor dbPrefix_Entry pathFF) = true ∧
    Namespace.Delete jsonCodec nsFF pathFF true = (nsFF, 0, none) ∧
    Namespace.Delete jsonCodec nsFF pathFFFD true = (nsFF, 1, none) ∧
    bigNamespace.state = namespaceStatus_OPEN ∧
    StoreOK plainCodec bigNamespace.db ∧
    (entriesUnder plainCodec bigNamespace.db []).length = 4294967296 ∧
    (Namespace.Delete plainCodec bigNamespace [] true).2.1 = 0 := by
  have hbig : bigNamespace =
      { path := [100, 98], db := bigDisk 4294967296, state := namespaceStatus_OPEN } :=
    open_bigDisk 4294967296 (le_refl _)
  have hok : StoreOK plainCodec bigNamespace.db := by
    rw [hbig]
    exact bigDisk_ok 4294967296 (le_refl _)
  have hcount : (entriesUnder plainCodec bigNamespace.db []).length = 4294967296 := by
    rw [hbig]
    exact bigDisk_count 4294967296
  have hopen : bigNamespace.state = namespaceStatus_OPEN := by
    rw [hbig]
  refine ⟨by decide, by decide, by decide, by decide, by decide, hopen, hok, hcount, ?_⟩
  rw [recursive_delete_spec plainCodec bigNamespace [] hopen hok, hcount]
  show 4294967296 % 2 ^ 32 = 0
  norm_num

/-! ## The store invariant is kept by the operations -/

theorem mem_dbPut {db : Store} {k v : Bytes} {r : Row} (h : r ∈ dbPut db k v) :
    r = (k, v) ∨ r ∈ db := by
  induction db with
  | nil =>
    simp only [dbPut, List.mem_singleton] at h
    exact Or.inl h
  | cons r0 rest ih =>
    obtain ⟨k0, v0⟩ := r0
    simp only [dbPut] at h
    split at h
    · rcases List.mem_cons.1 h with h1 | h1
      · exact Or.inl h1
      · exact Or.inr h1
    · split at h
      · rcases List.mem_cons.1 h with h1 | h1
        · exact Or.inl h1
        · exact Or.inr (List.mem_cons_of_mem _ h1)
      · rcases List.mem_cons.1 h with h1 | h1
        · exact Or.inr (h1 ▸ List.mem_cons_self _ _)
        · rcases ih h1 with h2 | h2
          · exact Or.inl h2
          · exact Or.inr (List.mem_cons_of_mem _ h2)

theorem dbPut_sorted {db : Store} (hs : Sorted db) (k v : Bytes) : Sorted (dbPut db k v) := by
  induction db with
  | nil => exact List.pairwise_singleton _ _
  | cons r0 rest ih =>
    obtain ⟨k0, v0⟩ := r0
    unfold Sorted at hs ih ⊢
    have hs1 := List.pairwise_cons.1 hs
    simp only [dbPut]
    split
    · rename_i hlt
      refine List.pairwise_cons.2 ⟨?_, hs⟩
      intro r hr
      rcases List.mem_cons.1 hr with h1 | h1
      · subst h1; exact hlt
      · exact bytesLt_trans hlt (hs1.1 r h1)
    · split
      · rename_i _ heq
        subst heq
        exact List.pairwise_cons.2 ⟨hs1.1, hs1.2⟩
      · rename_i hnlt hne
        refine List.pairwise_cons.2 ⟨?_, ih hs1.2⟩
        intro r hr
        rcases mem_dbPut hr with h1 | h1
        · subst h1
          cases hlt : bytesLt k0 k with
          | true => rfl
          | false =>
            have hnlt1 : bytesLt k k0 = false := by simpa using hnlt
            exact absurd (bytesLt_total hlt hnlt1) hne
        · exact hs1.1 r h1

theorem dbPut_ok {c : Codec} {db : Store} (hok : StoreOK c db) (k v : Bytes)
    (hrow : rowOK c (k, v) = true) : StoreOK c (dbPut db k v) := by
  refine ⟨dbPut_sorted hok.1 k v, ?_⟩
  intro r hr
  rcases mem_dbPut hr with h | h
  · subst h; exact hrow
  · exact hok.2 r h

theorem filter_ok {c : Codec} {db : Store} (hok : StoreOK c db) (f : Row → Bool) :
    StoreOK c (db.filter f) :=
  ⟨List.Pairwise.filter _ hok.1, fun r hr => hok.2 r (List.mem_of_mem_filter hr)⟩

/-- Method `Open` keeps the store invariant; a fresh directory satisfies it. -/
theorem open_ok (c : Codec) (n : Namespace) (hok : StoreOK c n.db) :
    StoreOK c (Namespace.Open n).1.db := by
  unfold Namespace.Open
  split
  · exact hok
  · simp only
    split
    · exact hok
    · exact dbPut_ok hok _ _ (by simp [rowOK, keyFor, dbPrefix_Entry, dbPrefix_GlobalMetadata])

theorem addBlocks_ok (c : Codec) (bs : List ns.BlockMetadata) (db : Store)
    (hok : StoreOK c db) : StoreOK c (addBlocks c db bs).1 := by
  induction bs generalizing db with
  | nil => exact hok
  | cons b rest ih =>
    simp only [addBlocks]
    cases hm : c.marshalBlock b with
    | none => exact hok
    | some value =>
      exact ih _ (dbPut_ok hok _ _
        (by simp [rowOK, keyFor, dbPrefix_Entry, dbPrefix_BlockAssignment]))

/-- Method `Add` keeps the store invariant when the codec gives back the entry. -/
theorem add_ok (c : Codec) (n : Namespace) (E : ns.Entry) (hok : StoreOK c n.db)
    (hloss : Lossless c E) : StoreOK c (Namespace.Add c n E).1.db := by
  unfold Namespace.Add
  split
  · exact hok
  · cases hm : c.marshalEntry E with
    | none => exact hok
    | some value =>
      exact addBlocks_ok c _ _ (dbPut_ok hok _ _ (by simp [rowOK, keyFor, hloss value hm]))

/-- Method `Delete` keeps the store invariant. -/
theorem delete_ok (c : Codec) (n : Namespace) (p : Bytes) (recursive : Bool)
    (hok : StoreOK c n.db) : StoreOK c (Namespace.Delete c n p recursive).1.db := by
  by_cases hopen : n.state = namespaceStatus_OPEN
  · rw [delete_spec c n p recursive hopen hok]
    exact filter_ok hok _
  · simp only [Namespace.Delete, ne_eq, hopen, not_false_eq_true, if_true]
    exact hok

/-- Method `Rename` keeps the store invariant when the codec gives back the
renamed entry. -/
theorem rename_ok (c : Codec) (n : Namespace) (from_ to_ : Bytes) (hok : StoreOK c n.db)
    (hloss : ∀ e : ns.Entry, Namespace.Get c n from_ = Except.ok e →
      Lossless c { e with Path := to_ }) :
    StoreOK c (Namespace.Rename c n from_ to_).1.db := by
  unfold Namespace.Rename
  split
  · exact hok
  · split
    · exact hok
    · rename_i entry hget
      simp only
      cases hm : c.marshalEntry { entry with Path := to_ } with
      | none => exact hok
      | some value =>
        simp only [dbWrite, dbDelete]
        have hrow : rowOK c (keyFor dbPrefix_Entry to_, value) = true := by
          simp [rowOK, keyFor, hloss entry hget value hm]
        exact filter_ok (dbPut_ok hok _ _ hrow) _

/-- Every namespace that the operations produce from a fresh directory, out of
entries that the codec gives back as written, has an ordered store whose Entry
rows decode to an entry with the path of their key. -/
theorem reachable_ok (c : Codec) (n : Namespace) (h : Reachable c n) : StoreOK c n.db := by
  induction h with
  | fresh path => exact ⟨List.Pairwise.nil, fun r hr => by cases hr⟩
  | opened n _ ih => exact open_ok c n ih
  | added n e _ hloss ih => exact add_ok c n e ih hloss
  | deleted n p recursive _ ih => exact delete_ok c n p recursive ih
  | renamed n from_ to_ _ hloss ih => exact rename_ok c n from_ to_ ih hloss
  | closed n _ ih =>
    unfold Namespace.Close
    split <;> exact ih

open nameservice

/-! ## Permissions across the name service -/

/-- C11 as stated fails: the mode bits `0755` (493) are passed to `Add`, which
succeeds, and `Get` of the same path returns the entry with the mode bits 237. -/
theorem permissions_verbatim_counterexample :
    freshOpen.state = namespaceStatus_OPEN ∧
    (NameService.Add plainCodec { Namespace := freshOpen } { Entry := some wireEntry755 }).2 =
      none ∧
    NameService.Get plainCodec
        (NameService.Add plainCodec { Namespace := freshOpen }
          { Entry := some wireEntry755 }).1 { Path := wireEntry755.Path } =
      Except.ok { Entry := some { wireEntry755 with Permissions := 237 } } ∧
    wireEntry755.Permissions = 493 := by
  decide

/-- C11, amended: on an open namespace, when `NameService.Add` of a message entry
`e` succeeds, a following `NameService.Get(e.Path)` returns an entry whose
Permissions value is `e.Permissions` modulo 256 (`Add` converts it to `uint8`),
hence `e.Permissions` itself whenever that is below 256; the codec gives back
the entry that `Add` wrote. -/
theorem permissions_low_byte (c : Codec) (this : NameService) (e : nameservice.Entry)
    (hopen : this.Namespace.state = namespaceStatus_OPEN)
    (hadd : (NameService.Add c this { Entry := some e }).2 = none)
    (hloss : Lossless c (addRequestEntry e)) :
    ∃ got : nameservice.Entry,
      NameService.Get c (NameService.Add c this { Entry := some e }).1 { Path := e.Path } =
        Except.ok { Entry := some got } ∧
      got.Permissions = e.Permissions % 256 ∧
      (e.Permissions < 256 → got.Permissions = e.Permissions) ∧
      got.Path = e.Path := by
  simp only [NameService.Add] at hadd ⊢
  have hget := get_after_add c this.Namespace (addRequestEntry e) hopen hadd hloss
  have hpath : (addRequestEntry e).Path = e.Path := rfl
  rw [hpath] at hget
  simp only [NameService.Get, hget]
  refine ⟨_, rfl, ?_, ?_, rfl⟩
  · simp only [addRequestEntry]
    omega
  · intro hlt
    simp only [addRequestEntry]
    omega

theorem permissions_low_byte_witness :
    freshOpen.state = namespaceStatus_OPEN ∧
    (NameService.Add plainCodec { Namespace := freshOpen } { Entry := some wireEntry177 }).2 =
      none ∧
    ∃ got : nameservice.Entry,
      NameService.Get plainCodec
          (NameService.Add plainCodec { Namespace := freshOpen }
            { Entry := some wireEntry177 }).1 { Path := wireEntry177.Path } =
        Except.ok { Entry := some got } ∧
      got.Permissions = wireEntry177.Permissions % 256 ∧
      (wireEntry177.Permissions < 256 → got.Permissions = wireEntry177.Permissions) ∧
      got.Path = wireEntry177.Path :=
  ⟨by decide, by decide,
    permissions_low_byte plainCodec { Namespace := freshOpen } wireEntry177 (by decide)
      (by decide) (plainCodec_lossless _)⟩

/-! ## Rename onto the same path -/

/-- C15: on an open namespace that holds an entry at `p`, `Rename(p, p)` writes
the batch of `Put (Entry, p)` then `Delete (Entry, p)`, reports success, and
leaves the key absent: a following `Get(p)` fails with the no-such-entry error
(the batch is applied in the order its operations were staged; the codec
serializes the entry read back). -/
theorem rename_same_path (c : Codec) (n : Namespace) (p : Bytes) (e : ns.Entry) (v : Bytes)
    (hopen : n.state = namespaceStatus_OPEN)
    (hheld : Namespace.Get c n p = Except.ok e)
    (hm : c.marshalEntry { e with Path := p } = some v) :
    Namespace.Rename c n p p =
      ({ n with db := (dbWrite n.db
          [BatchOp.put (keyFor dbPrefix_Entry p) v, BatchOp.delete (keyFor dbPrefix_Entry p)]) },
        true, none) ∧
    dbGet (Namespace.Rename c n p p).1.db (keyFor dbPrefix_Entry p) = none ∧
    Namespace.Get c (Namespace.Rename c n p p).1 p = Except.error (Err.noSuchEntry p) := by
  have hren : Namespace.Rename c n p p =
      ({ n with db := (dbWrite n.db
          [BatchOp.put (keyFor dbPrefix_Entry p) v, BatchOp.delete (keyFor dbPrefix_Entry p)]) },
        true, none) := by
    simp only [Namespace.Rename, hopen, ne_eq, not_true_eq_false, if_false, hheld, hm]
  have hgone : dbGet (Namespace.Rename c n p p).1.db (keyFor dbPrefix_Entry p) = none := by
    rw [hren]
    simp only [dbWrite, dbGet_dbDelete, if_true]
  refine ⟨hren, hgone, ?_⟩
  have hst : (Namespace.Rename c n p p).1.state = namespaceStatus_OPEN := by
    rw [hren]; exact hopen
  simp only [Namespace.Get, hst, ne_eq, not_true_eq_false, if_false, hgone]

theorem rename_same_path_witness :
    nsD.state = namespaceStatus_OPEN ∧
    Namespace.Get plainCodec nsD pathD1 = Except.ok (entryAt pathD1) ∧
    (Namespace.Rename plainCodec nsD pathD1 pathD1).2 = (true, none) ∧
    Namespace.Get plainCodec (Namespace.Rename plainCodec nsD pathD1 pathD1).1 pathD1 =
      Except.error (Err.noSuchEntry pathD1) :=
  ⟨by decide, by decide, by decide,
    (rename_same_path plainCodec nsD pathD1 (entryAt pathD1)
      (putEntry { entryAt pathD1 with Path := pathD1 }) (by decide) (by decide) rfl).2.2⟩

open nameservice client

/-! ## The client: rename across hosts -/

/-- Method `NameService.Add` of an entry leaves every other path as it was. -/
theorem nameservice_add_other_path (c : Codec) (this : NameService) (e : nameservice.Entry)
    (q : Bytes) (hq : q ≠ e.Path) :
    NameService.Get c (NameService.Add c this { Entry := some e }).1 { Path := q } =
      NameService.Get c this { Path := q } := by
  simp only [NameService.Add, NameService.Get, Namespace.Get, add_state]
  by_cases hopen : this.Namespace.state = namespaceStatus_OPEN
  · have hdb : dbGet (Namespace.Add c this.Namespace (addRequestEntry e)).1.db
        (keyFor dbPrefix_Entry q) = dbGet this.Namespace.db (keyFor dbPrefix_Entry q) := by
      simp only [Namespace.Add, hopen, ne_eq, not_true_eq_false, if_false]
      cases hm : c.marshalEntry (addRequestEntry e) with
      | none => rfl
      | some value =>
        simp only
        rw [addBlocks_get_other c _ _ _ (by
          intro id h
          simp [keyFor, dbPrefix_Entry, dbPrefix_BlockAssignment] at h)]
        rw [dbGet_dbPut, if_neg]
        intro h
        simp only [keyFor, List.singleton_append, List.cons.injEq, true_and] at h
        exact hq h
    simp only [hopen, ne_eq, not_true_eq_false, if_false, hdb]
  · simp only [ne_eq, hopen, not_false_eq_true, if_true]

/-- C12 at a failing input: `/a` lives on `h1`, `/b` belongs to `h2`, and the
`Delete` to `h1` fails in transport.  `Rename("/a", "/b")` issues Get, Add and
Delete and returns the transport error; afterwards `Get("/a")` on `h1` returns
the entry, but `Get("/b")` on `h2` fails with the no-such-entry error: `Add`
stored the entry on `h2` under its old path `/a`. -/
theorem cross_host_rename_partial_failure :
    twoHostClient.hash.Get pathA = Except.ok hostId1 ∧
    twoHostClient.hash.Get pathB = Except.ok hostId2 ∧
    (Client.Rename (netRemote plainCodec) twoHostClient netDeleteFails pathA pathB).2 =
      some Err.transport ∧
    (Client.Rename (netRemote plainCodec) twoHostClient netDeleteFails pathA pathB).1.calls =
      [{ address := address1, method := Method.Get },
       { address := address2, method := Method.Add },
       { address := address1, method := Method.Delete }] ∧
    ((netRemote plainCodec).nameClient_Get
      (Client.Rename (netRemote plainCodec) twoHostClient netDeleteFails pathA pathB).1
      { conn := address1 } { Path := pathA }).2 = Except.ok { Entry := some wireEntryA } ∧
    ((netRemote plainCodec).nameClient_Get
      (Client.Rename (netRemote plainCodec) twoHostClient netDeleteFails pathA pathB).1
      { conn := address2 } { Path := pathB }).2 = Except.error (Err.noSuchEntry pathB) ∧
    ((netRemote plainCodec).nameClient_Get
      (Client.Rename (netRemote plainCodec) twoHostClient netDeleteFails pathA pathB).1
      { conn := address2 } { Path := pathA }).2 = Except.ok { Entry := some wireEntryA } := by
  decide

/-! ## The client: an empty ring -/

/-- C13: with an empty ring, `Open`, `Remove` and `Rename` return the routing
error `ErrEmptyCircle` and leave the services untouched (no connection is
obtained, no RPC is issued); `Stat` does not test the error and dereferences the
nil connection. -/
theorem empty_ring_operations {W : Type} (R : Remote W) (this : Client) (w : W)
    (path destinationPath : Bytes) (hempty : this.hash.members = []) :
    Client.Open R this w path = (w, some Err.emptyCircle) ∧
    Client.Remove R this w path = (w, some Err.emptyCircle) ∧
    Client.Rename R this w path destinationPath = (w, some Err.emptyCircle) ∧
    Client.Stat R this w path = (w, Except.error Err.runtimePanic) := by
  have hconn : ∀ p, Client.connectionForPath R this w p = (w, Except.error Err.emptyCircle) := by
    intro p
    simp only [Client.connectionForPath, Consistent.Get, hempty]
  refine ⟨?_, ?_, ?_, ?_⟩
  · simp only [Client.Open, hconn]
  · simp only [Client.Remove, hconn]
  · simp only [Client.Rename, hconn]
  · simp only [Client.Stat, hconn]

theorem empty_ring_operations_witness :
    emptyRingClient.hash.members = [] ∧
    Client.Open (netRemote plainCodec) emptyRingClient netTwo pathA =
      (netTwo, some Err.emptyCircle) ∧
    Client.Remove (netRemote plainCodec) emptyRingClient netTwo pathA =
      (netTwo, some Err.emptyCircle) ∧
    Client.Rename (netRemote plainCodec) emptyRingClient netTwo pathA pathB =
      (netTwo, some Err.emptyCircle) ∧
    Client.Stat (netRemote plainCodec) emptyRingClient netTwo pathA =
      (netTwo, Except.error Err.runtimePanic) ∧
    netTwo.calls = [] :=
  ⟨rfl,
    (empty_ring_operations (netRemote plainCodec) emptyRingClient netTwo pathA pathB rfl).1,
    (empty_ring_operations (netRemote plainCodec) emptyRingClient netTwo pathA pathB rfl).2.1,
    (empty_ring_operations (netRemote plainCodec) emptyRingClient netTwo pathA pathB rfl).2.2.1,
    (empty_ring_operations (netRemote plainCodec) emptyRingClient netTwo pathA pathB rfl).2.2.2,
    rfl⟩

open nameservice client

/-! ## The client: the producer of List -/

theorem chan_close_closed {ch : Chan} (h : ch.closed = true) :
    ch.close = Except.error Err.runtimePanic := by
  simp [Chan.close, h]

theorem chan_close_ok {ch ch1 : Chan} (h : ch.close = Except.ok ch1) : ch1.closed = true := by
  unfold Chan.close at h
  split at h
  · cases h
  · cases h
    rfl

/-- Sending entries keeps the channel as closed as it was, or panics. -/
theorem sendEntries_result (es : List nameservice.Entry) (ch : Chan) :
    sendEntries es ch = Except.error Err.runtimePanic ∨
      ∃ ch1, sendEntries es ch = Except.ok ch1 ∧ ch1.closed = ch.closed := by
  induction es generalizing ch with
  | nil => exact Or.inr ⟨ch, rfl, rfl⟩
  | cons e rest ih =>
    simp only [sendEntries, Chan.send]
    by_cases hc : ch.closed = true
    · simp [hc]
    · have hf : ch.closed = false := by simpa using hc
      simp only [hf, Bool.false_eq_true, if_false]
      rcases ih { sent := ch.sent ++ [e], closed := false } with h | ⟨ch1, h1, h2⟩
      · exact Or.inl h
      · exact Or.inr ⟨ch1, h1, h2⟩

/-- A receive loop that starts on a closed channel, or that ends with an error
other than `io.EOF`, leaves the channel closed, or panics. -/
theorem recvLoop_result (rs : List ListResponse) (ending : Err) (ch : Chan)
    (h : ch.closed = true ∨ ending ≠ Err.EOF) :
    recvLoop rs ending ch = Except.error Err.runtimePanic ∨
      ∃ ch1, recvLoop rs ending ch = Except.ok ch1 ∧ ch1.closed = true := by
  induction rs generalizing ch with
  | nil =>
    simp only [recvLoop]
    by_cases he : ending = Err.EOF
    · rcases h with h | h
      · exact Or.inr ⟨ch, by simp [he], h⟩
      · exact absurd he h
    · simp only [he, if_false]
      by_cases hc : ch.closed = true
      · exact Or.inl (chan_close_closed hc)
      · exact Or.inr ⟨{ ch with closed := true }, by simp [Chan.close, hc], rfl⟩
  | cons r rest ih =>
    simp only [recvLoop]
    rcases sendEntries_result r.Entries ch with hs | ⟨ch1, hs, hcl⟩
    · simp [hs]
    · simp only [hs]
      exact ih ch1 (by
        rcases h with h | h
        · exact Or.inl (by rw [hcl]; exact h)
        · exact Or.inr h)

/-- From a closed channel on, the loop over the hosts panics or falls through
with the channel closed; it does not return from inside. -/
theorem listHosts_closed {W : Type} (R : Remote W) (request : ListRequest)
    (hosts : List HostConfig) (w : W) (ch : Chan) (hc : ch.closed = true) :
    (listHosts R request hosts w ch).2 = Except.error Err.runtimePanic ∨
      ∃ ch1, (listHosts R request hosts w ch).2 = Except.ok (ch1, false) ∧
        ch1.closed = true := by
  induction hosts generalizing w ch with
  | nil => exact Or.inr ⟨ch, rfl, hc⟩
  | cons hostConfig rest ih =>
    simp only [listHosts]
    rcases hget : R.lruGet w hostConfig.AdvertiseAddress with ⟨w1, r1⟩
    cases r1 with
    | error err => simp [chan_close_closed hc]
    | ok conn =>
      simp only
      rcases hlist : R.nameClient_List w1 conn request with ⟨w2, r2⟩
      cases r2 with
      | error err => simp [chan_close_closed hc]
      | ok listStream =>
        simp only
        rcases recvLoop_result listStream.responses listStream.ending ch (Or.inl hc) with
          hr | ⟨ch1, hr, hcl⟩
        · simp [hr]
        · simp only [hr]
          exact ih w2 ch1 hcl

/-- When the loop over the hosts returns from inside, it has closed the channel. -/
theorem listHosts_returned {W : Type} (R : Remote W) (request : ListRequest)
    (hosts : List HostConfig) (w : W) (ch ch1 : Chan)
    (h : (listHosts R request hosts w ch).2 = Except.ok (ch1, true)) : ch1.closed = true := by
  induction hosts generalizing w ch with
  | nil => simp [listHosts] at h
  | cons hostConfig rest ih =>
    simp only [listHosts] at h
    rcases hget : R.lruGet w hostConfig.AdvertiseAddress with ⟨w1, r1⟩
    rw [hget] at h
    cases r1 with
    | error err =>
      simp only at h
      cases hc : ch.close with
      | error e => rw [hc] at h; cases h
      | ok ch2 =>
        rw [hc] at h
        cases h
        exact chan_close_ok hc
    | ok conn =>
      simp only at h
      rcases hlist : R.nameClient_List w1 conn request with ⟨w2, r2⟩
      rw [hlist] at h
      cases r2 with
      | error err =>
        simp only at h
        cases hc : ch.close with
        | error e => rw [hc] at h; cases h
        | ok ch2 =>
          rw [hc] at h
          cases h
          exact chan_close_ok hc
      | ok listStream =>
        simp only at h
        cases hr : recvLoop listStream.responses listStream.ending ch with
        | error e => rw [hr] at h; cases h
        | ok ch2 =>
          rw [hr] at h
          exact ih w2 ch2 h

/-- When the producer of `Client.List` ends without a panic, it leaves the channel
closed; a second close or a send after the close would have been a panic. -/
theorem list_ended_closed {W : Type} (R : Remote W) (this : Client) (w : W)
    (startKey endKey : Bytes) (ch : Chan)
    (h : (Client.List R this w startKey endKey).2 = Except.ok ch) : ch.closed = true := by
  unfold Client.List at h
  rcases hres : listHosts R { StartKey := startKey, EndKey := endKey }
    (this.hostConfigs.map (fun kv => kv.2)) w { sent := [], closed := false } with ⟨w1, r⟩
  rw [hres] at h
  cases r with
  | error err => cases h
  | ok p =>
    obtain ⟨ch1, returned⟩ := p
    cases returned with
    | true =>
      simp only at h
      cases h
      exact listHosts_returned R _ _ w _ ch (by rw [hres])
    | false =>
      simp only at h
      exact chan_close_ok h

/-- C14 at its failing inputs: when the first host of the snapshot is connected,
its list stream is opened, and the stream ends with an error other than
`io.EOF`, the producer of `Client.List` panics, whatever the other hosts do: it
closes the channel at the failed `Recv`, goes on with the loop, and then sends
on the closed channel or closes it a second time. -/
theorem list_recv_error_panics {W : Type} (R : Remote W) (this : Client) (w w1 w2 : W)
    (startKey endKey : Bytes) (hostId : Bytes) (hostConfig : HostConfig)
    (others : List (Bytes × HostConfig)) (conn : serviceClient) (listStream : ListStream)
    (hhosts : this.hostConfigs = (hostId, hostConfig) :: others)
    (hconn : R.lruGet w hostConfig.AdvertiseAddress = (w1, Except.ok conn))
    (hopen : R.nameClient_List w1 conn { StartKey := startKey, EndKey := endKey } =
      (w2, Except.ok listStream))
    (hrecv : listStream.ending ≠ Err.EOF) :
    (Client.List R this w startKey endKey).2 = Except.error Err.runtimePanic := by
  simp only [Client.List, hhosts, List.map_cons, listHosts, hconn, hopen]
  rcases recvLoop_result listStream.responses listStream.ending { sent := [], closed := false }
    (Or.inr hrecv) with hr | ⟨ch1, hr, hcl⟩
  · simp [hr]
  · simp only [hr]
    rcases listHosts_closed R { StartKey := startKey, EndKey := endKey }
      (others.map (fun kv => kv.2)) w2 ch1 hcl with hl | ⟨ch2, hl, hcl2⟩
    · rcases hres : listHosts R { StartKey := startKey, EndKey := endKey }
        (others.map (fun kv => kv.2)) w2 ch1 with ⟨w3, r3⟩
      rw [hres] at hl
      simp only at hl
      subst hl
      simp only [hres]
    · rcases hres : listHosts R { StartKey := startKey, EndKey := endKey }
        (others.map (fun kv => kv.2)) w2 ch1 with ⟨w3, r3⟩
      rw [hres] at hl
      simp only at hl
      subst hl
      simp only [hres]
      exact chan_close_closed hcl2

theorem list_recv_error_panics_witness :
    netRecvFails.cut = [(address1, 0)] ∧
    (Client.List (netRemote plainCodec) twoHostClient netRecvFails [] []).2 =
      Except.error Err.runtimePanic ∧
    (Client.List (netRemote plainCodec) oneHostClient netRecvFails [] []).2 =
      Except.error Err.runtimePanic ∧
    (Client.List (netRemote plainCodec) twoHostClient netTwo [] []).2 =
      Except.ok { sent := [wireEntryA], closed := true } :=
  ⟨rfl,
    list_recv_error_panics (netRemote plainCodec) twoHostClient netRecvFails
      ((netRemote plainCodec).lruGet netRecvFails address1).1
      ((netRemote plainCodec).nameClient_List netRecvFails { conn := address1 }
        { StartKey := [], EndKey := [] }).1
      [] [] hostId1 { Id := hostId1, Hostname := hostId1, AdvertiseAddress := address1 }
      [(hostId2, { Id := hostId2, Hostname := hostId2, AdvertiseAddress := address2 })]
      { conn := address1 } { responses := [], ending := Err.transport }
      rfl (by decide) (by decide) (by decide),
    by decide, by decide⟩

open nameservice

/-! ## A namespace with 513 entries, and the batches once more -/

theorem asciiPath_lt {i j : Nat} (hij : i < j) (hj : j < 2097152) :
    bytesLt (asciiPath i) (asciiPath j) = true := by
  simp only [asciiPath, bytesLt]
  split_ifs <;> first | rfl | omega

theorem asciiDisk_sorted (N : Nat) (hN : N ≤ 2097152) : Sorted (asciiDisk N) := by
  unfold Sorted asciiDisk
  rw [List.pairwise_append]
  refine ⟨?_, List.pairwise_singleton _ _, ?_⟩
  · rw [List.pairwise_map]
    refine List.Pairwise.imp_of_mem ?_ (List.pairwise_lt_range N)
    intro i j _ hj hij
    have hj1 : j < 2097152 := lt_of_lt_of_le (List.mem_range.1 hj) hN
    have := asciiPath_lt hij hj1
    simpa [keyFor, bytesLt] using this
  · intro r hr r1 hr1
    obtain ⟨i, _, hi⟩ := List.mem_map.1 hr
    rw [List.mem_singleton] at hr1
    subst hr1
    subst hi
    simp [keyFor, bytesLt, dbPrefix_Entry, dbPrefix_GlobalMetadata]

theorem asciiDisk_rows (N : Nat) : ∀ r ∈ asciiDisk N, rowOK jsonCodec r = true := by
  intro r hr
  unfold asciiDisk at hr
  rcases List.mem_append.1 hr with h | h
  · obtain ⟨i, _, hi⟩ := List.mem_map.1 h
    subst hi
    simp [rowOK, keyFor, jsonCodec, getEntry_putEntry, entryAt]
  · rw [List.mem_singleton] at h
    subst h
    simp [rowOK, keyFor, dbPrefix_Entry, dbPrefix_GlobalMetadata]

theorem asciiDisk_ok (N : Nat) (hN : N ≤ 2097152) : StoreOK jsonCodec (asciiDisk N) :=
  ⟨asciiDisk_sorted N hN, asciiDisk_rows N⟩

theorem open_asciiDisk (N : Nat) (hN : N ≤ 2097152) :
    (Namespace.Open (New [100, 98] (asciiDisk N))).1 =
      { path := [100, 98], db := asciiDisk N, state := namespaceStatus_OPEN } := by
  have hmem : (keyFor dbPrefix_GlobalMetadata blockIdKey, [0]) ∈ asciiDisk N := by
    unfold asciiDisk
    exact List.mem_append_right _ (List.mem_singleton_self _)
  have hget := dbGet_of_mem (asciiDisk_sorted N hN) hmem
  simp [Namespace.Open, New, dbHas, hget]

theorem asciiDisk_count (N : Nat) :
    (entriesInRange jsonCodec (asciiDisk N) [] []).length = N := by
  have hall : (entriesInRange jsonCodec (asciiDisk N) [] []).filter
      (fun e => hasPrefix e.Path []) = entriesInRange jsonCodec (asciiDisk N) [] [] := by
    rw [List.filter_eq_self]
    intro e _
    cases e.Path <;> rfl
  have h := length_entriesUnder jsonCodec (asciiDisk N) (asciiDisk_rows N) []
  unfold entriesUnder at h
  rw [hall] at h
  rw [h]
  unfold asciiDisk
  rw [List.filter_append, List.length_append]
  have h1 : List.filter (entryRowUnder [])
      (List.map (fun i => (keyFor dbPrefix_Entry (asciiPath i), putEntry (entryAt (asciiPath i))))
        (List.range N)) =
      List.map (fun i => (keyFor dbPrefix_Entry (asciiPath i), putEntry (entryAt (asciiPath i))))
        (List.range N) := by
    rw [List.filter_eq_self]
    intro r hr
    obtain ⟨i, _, hi⟩ := List.mem_map.1 hr
    subst hi
    simp [entryRowUnder, keyFor, hasPrefix]
  rw [h1, List.length_map, List.length_range]
  simp [entryRowUnder, keyFor, dbPrefix_Entry, dbPrefix_GlobalMetadata]

theorem ns513_eq :
    ns513 = { path := [100, 98], db := asciiDisk 513, state := namespaceStatus_OPEN } :=
  open_asciiDisk 513 (by norm_num)

theorem nameservice_list_batches_witness :
    ns513.state = namespaceStatus_OPEN ∧ StoreOK jsonCodec ns513.db ∧
    (entriesInRange jsonCodec ns513.db [] []).length = 513 ∧
    ∃ batches : List ListResponse,
      NameService.List jsonCodec { Namespace := ns513 } { StartKey := [], EndKey := [] }
          { sent := [], budget := none } =
        ({ sent := [] ++ batches, budget := none }, none) ∧
      batches.length = 2 ∧
      (∀ b ∈ batches.dropLast, b.Entries.length = 512) ∧
      ((batches.map (fun b => b.Entries)).flatten).length = 513 := by
  have hopen : ns513.state = namespaceStatus_OPEN := by rw [ns513_eq]
  have hok : StoreOK jsonCodec ns513.db := by
    rw [ns513_eq]
    exact asciiDisk_ok 513 (by norm_num)
  have hcount : (entriesInRange jsonCodec ns513.db [] []).length = 513 := by
    rw [ns513_eq]
    exact asciiDisk_count 513
  obtain ⟨batches, h1, h2, _, _, h5, h6, _⟩ :=
    nameservice_list_batches jsonCodec { Namespace := ns513 } { StartKey := [], EndKey := [] }
      { sent := [], budget := none } hopen hok rfl
  refine ⟨hopen, hok, hcount, batches, h1, ?_, h5, ?_⟩
  · rw [h6]
    simp only at hcount ⊢
    rw [hcount]
  · rw [h2, List.length_map]
    exact hcount

/-- C10 as stated fails on a namespace that `Open` and `Add` build when strings
are coerced as JSON does: after `Add` at the paths `\x80` and `\xc2\x80`,
`NameService.List` sends one batch with the path U+FFFD and then `\xc2\x80`,
in descending order, and the first is the path of no stored entry. -/
theorem nameservice_list_batches_counterexample :
    freshOpen.state = namespaceStatus_OPEN ∧
    (Namespace.Add jsonCodec freshOpen (entryAt path80)).2 = none ∧
    (Namespace.Add jsonCodec (Namespace.Add jsonCodec freshOpen (entryAt path80)).1
      (entryAt pathC280)).2 = none ∧
    nsBad.state = namespaceStatus_OPEN ∧
    (NameService.List jsonCodec { Namespace := nsBad } { StartKey := [], EndKey := [] }
        { sent := [], budget := none }).1.sent.map
        (fun b => b.Entries.map (fun e => e.Path)) = [[pathFFFD, pathC280]] ∧
    bytesLt pathFFFD pathC280 = false ∧
    storedEntry jsonCodec nsBad.db pathFFFD = none := by
  decide

end Bfs
